import Mathlib

/-!
Verification development for the whisper-to-line-protocol exporter
(`main.go`, newer variant: the one with retention-bucketed output).

Strings are modelled as `List Char`.  The two fixed regular expressions of
the source are hand-compiled into executable Lean functions implementing
Go's (RE2, leftmost-first, greedy) matching semantics:

* the wildcard finder `reWild`, whose pattern text is
  `\x7b\x7b\s*(\S+)\s*\x7d\x7d` (two open braces, optional whitespace,
  a nonempty run of non-whitespace captured, optional whitespace, two
  close braces), is modelled by `tryTok` / `findToks`;
* the compiled path matcher, obtained in the source by escaping every `.`
  of the user pattern and then replacing each wildcard-finder match by the
  group `([^.]+)`, is modelled by `compilePattern` (producing a list of
  literal characters and groups) together with the backtracking matcher
  `matchSegs` / `findFirst`.

Literal characters of a pattern are matched literally; this is exact for
patterns whose literal parts contain no regex metacharacter other than `.`
(the dots are escaped by the source itself), which covers the
configuration grammar of the repository's README.
-/

/-- Strings as character lists. -/
abbrev Chars := List Char

/-- `str s` converts a string literal to its character list. -/
def str (s : String) : Chars := s.data

/-- Whitespace class of RE2's `\s`: tab, newline, form feed, carriage
return and space. -/
def isWs (c : Char) : Bool :=
  c = ' ' || c = '\t' || c = '\n' || c = '\x0c' || c = '\r'

/-- Alphanumeric characters, the wildcard-name alphabet of the
repository's configuration examples. -/
def isAlnum (c : Char) : Bool :=
  ('a' ≤ c && c ≤ 'z') || ('A' ≤ c && c ≤ 'Z') || ('0' ≤ c && c ≤ '9')

/-- Attempt to complete a match of the wildcard finder immediately after
its two opening braces: text = optional whitespace run, a nonempty
non-whitespace run (the greedy `\S+` capture, shrunk just enough to let
the closing braces match), optional whitespace run, two closing braces.
Returns the number of characters consumed after the opening braces and
the captured name, or `none` when no completion exists. -/
def tryTok (s1 : Chars) : Option (Nat × Chars) :=
  let w1 := (s1.takeWhile isWs).length
  let s2 := s1.drop w1
  let r := (s2.takeWhile (fun c => !isWs c)).length
  if r = 0 then none
  else
    let s3 := s2.drop r
    let w2 := (s3.takeWhile isWs).length
    let s4 := s3.drop w2
    if s4.take 2 = ['}', '}'] then some (w1 + r + w2 + 2, s2.take r)
    else
      match ((List.range r).filter (fun k =>
          decide (1 ≤ k) && (s2.get? k == some '}') && (s2.get? (k + 1) == some '}'))).getLast? with
      | some k => some (w1 + k + 2, s2.take k)
      | none => none

/-- Fueled scan for `findToks` (the fuel decreases by one per scan step;
the wrapper supplies the input length, which always suffices). -/
def findToksF : Nat → Chars → List (Chars × Chars)
  | 0, _ => []
  | _ + 1, [] => []
  | fuel + 1, '{' :: '{' :: s1 =>
    (match tryTok s1 with
     | some (n, name) => ('{' :: '{' :: s1.take n, name) :: findToksF fuel (s1.drop n)
     | none => findToksF fuel ('{' :: s1))
  | fuel + 1, _ :: s' => findToksF fuel s'

/-- All matches of the wildcard finder in a string, leftmost first,
non-overlapping, as (full match, captured name) pairs.  Models
`reWild.FindAllStringSubmatch(s, -1)`. -/
def findToks (s : Chars) : List (Chars × Chars) := findToksF s.length s

/-- One element of a compiled path pattern: a literal character or the
capturing group `([^.]+)`. -/
inductive Seg where
  | litc (c : Char)
  | group
deriving DecidableEq, Repr

/-- Fueled scan for `segsOf`. -/
def segsOfF : Nat → Chars → List Seg
  | 0, _ => []
  | _ + 1, [] => []
  | fuel + 1, '{' :: '{' :: s1 =>
    (match tryTok s1 with
     | some (n, _) => .group :: segsOfF fuel (s1.drop n)
     | none => .litc '{' :: segsOfF fuel ('{' :: s1))
  | fuel + 1, c :: s' => .litc c :: segsOfF fuel s'

/-- Segmentation of a (dot-escaped) pattern string by the wildcard
finder: every finder match becomes a group (this is
`reWild.ReplaceAllLiteralString(pattern, "([^.]+)")`), all remaining
characters stay as literals. -/
def segsOf (s : Chars) : List Seg := segsOfF s.length s

/-- Escape every `.` of the user pattern, as the source does before
substituting the groups. -/
def escapeDots (s : Chars) : Chars :=
  s.flatMap (fun c => if c = '.' then ['\\', '.'] else [c])

/-- Interpret the backslash escapes produced by `escapeDots`: a literal
backslash followed by a literal character matches that character. -/
def unescapeSegs : List Seg → List Seg
  | .litc '\\' :: .litc c :: rest => .litc c :: unescapeSegs rest
  | s :: rest => s :: unescapeSegs rest
  | [] => []

/-- The compiled matcher of a rule pattern: escape the dots, replace each
wildcard-finder match by a group, read the result back as literal
characters and groups. -/
def compilePattern (p : Chars) : List Seg := unescapeSegs (segsOf (escapeDots p))

/-- Fueled matcher: match a compiled pattern at the start of the input
(the input may extend past the match).  Groups are `([^.]+)`: greedy with
backtracking, realized by trying the candidate group lengths from the
longest dot-free prefix down to one.  Returns the captured group values.
The fuel decreases by one per pattern element; the wrapper supplies the
pattern length plus one, which always suffices. -/
def matchSegsF : Nat → List Seg → Chars → Option (List Chars)
  | 0, _, _ => none
  | _ + 1, [], _ => some []
  | _ + 1, .litc _ :: _, [] => none
  | fuel + 1, .litc c :: rest, c' :: s' => if c' = c then matchSegsF fuel rest s' else none
  | fuel + 1, .group :: rest, s =>
    (((List.range ((s.takeWhile (fun c => !(c = '.'))).length)).reverse.map (fun i => i + 1)).findSome?
      (fun k =>
        match matchSegsF fuel rest (s.drop k) with
        | some caps => some (s.take k :: caps)
        | none => none))

/-- Matcher at the start of the input (see `matchSegsF`). -/
def matchSegs (segs : List Seg) (s : Chars) : Option (List Chars) :=
  matchSegsF (segs.length + 1) segs s

/-- Leftmost match of a compiled pattern anywhere in the input (the
pattern is not anchored): models `re.FindAllStringSubmatch(s, -1)[0]`,
returning the captured groups of the first match, or `none` when the
pattern matches nowhere. -/
def findFirst (segs : List Seg) : Chars → Option (List Chars)
  | [] => matchSegs segs []
  | c :: s' =>
    match matchSegs segs (c :: s') with
    | some caps => some caps
    | none => findFirst segs s'

/-- Head test for the substitution regex built by the source as
`\x7b\x7b\s` + name + `\s\x7d\x7d` (the wildcard name between a single
whitespace on each side, inside double braces).  The source interpolates
the name into regex source, so a name containing regex metacharacters
changes the regex's structure (an alternation bar in the name, for
instance, makes its middle branches match on their own, and an unbalanced
parenthesis makes the compilation itself fail).  This model matches the
name literally, which coincides with the source exactly when the name
contains no regex metacharacter — in particular for alphanumeric names,
the only names the theorems about substitution behavior quantify over.
When the input starts with such a token, return the input after it. -/
def headTok (name : Chars) (s : Chars) : Option Chars :=
  match s with
  | '{' :: '{' :: w1 :: t =>
    if isWs w1 && name.isPrefixOf t then
      match t.drop name.length with
      | w2 :: '}' :: '}' :: rest => if isWs w2 then some rest else none
      | _ => none
    else none
  | _ => none

theorem headTok_length {name s rest} (h : headTok name s = some rest) :
    rest.length + 6 ≤ s.length := by
  unfold headTok at h
  split at h
  · rename_i w1 t
    split at h
    · split at h
      · rename_i w2 rest' heq
        split at h
        · have hlen : (t.drop name.length).length ≤ t.length := by
            rw [List.length_drop]; omega
          rw [heq] at hlen
          simp only [Option.some.injEq] at h
          subst h
          simp only [List.length_cons] at hlen ⊢
          omega
        · exact absurd h (by simp)
      · exact absurd h (by simp)
    · exact absurd h (by simp)
  · exact absurd h (by simp)

/-- Fueled scan for `replTok` (fuel decreases by one per step; exhausted
fuel returns the input unchanged and is never reached from the wrapper). -/
def replTokF (name value : Chars) : Nat → Chars → Chars
  | 0, s => s
  | _ + 1, [] => []
  | fuel + 1, c :: s' =>
    match headTok name (c :: s') with
    | some rest => value ++ replTokF name value fuel rest
    | none => c :: replTokF name value fuel s'

/-- Replace every occurrence (leftmost, non-overlapping, replacements not
rescanned) of the single-whitespace wildcard token for `name` by `value`:
models `re.ReplaceAllLiteralString` for the substitution regex.  Built on
`headTok`, so the name is matched literally; exact for names without
regex metacharacters (see `headTok`). -/
def replTok (name value : Chars) (s : Chars) : Chars := replTokF name value s.length s

/-- Replace every occurrence of character `a` by `b`
(`strings.Replace(s, a, b, -1)` for single characters). -/
def replaceChar (a b : Char) (s : Chars) : Chars :=
  s.map (fun c => if c = a then b else c)

/-- `strings.TrimSuffix`. -/
def trimSuffix (s suf : Chars) : Chars :=
  if suf.isSuffixOf s then s.take (s.length - suf.length) else s

/-- Path normalization of `assignConfig`: drop a trailing `.wsp`, then
turn `/` into `.` and `,` and space into `_`. -/
def normalizePath (wspFile : Chars) : Chars :=
  replaceChar ' ' '_' (replaceChar ',' '_' (replaceChar '/' '.'
    (trimSuffix wspFile (str ".wsp"))))

/-- Last `.`-separated segment of a path (`strings.Split` then the final
element; the split of any string is nonempty, so the default is never
used). -/
def lastSegment (s : Chars) : Chars := (s.splitOn '.').getLastD []

/-- One rule of the JSON configuration file. -/
structure Rule where
  pattern : Chars
  measurement : Chars
  field : Chars
  tags : List (Chars × Chars)
deriving DecidableEq, Repr

/-- The tag string built by `assignConfig`: `,key=value` for each
configured tag, concatenated. -/
def tagsString (tags : List (Chars × Chars)) : Chars :=
  tags.foldl (fun acc kv => acc ++ ',' :: (kv.1 ++ '=' :: kv.2)) []

/-- Result of `assignConfig`: no rule matched, an out-of-bounds wildcard
access (a runtime index panic in the source), or the resolved
measurement, field and tag strings. -/
inductive AssignResult where
  | unmatched
  | oob
  | ok (measurement field tags : Chars)
deriving DecidableEq, Repr

/-- Apply the substitution of one wildcard to the three template
strings. -/
def applyWild (name value : Chars) : Chars × Chars × Chars → Chars × Chars × Chars
  | (m, f, t) => (replTok name value m, replTok name value f, replTok name value t)

/-- The substitution loop of `assignConfig`, descending:
`for i := len(matched) - 1; i > 0; i--` uses the wildcard at index `i-1`
and the captured value at index `i-1` of the capture list.  `none`
models the index panic when the wildcard list is too short. -/
def substDown (wild : List (Chars × Chars)) (caps : List Chars) :
    Nat → Chars × Chars × Chars → Option (Chars × Chars × Chars)
  | 0, st => some st
  | j + 1, st =>
    match wild.get? j, caps.get? j with
    | some w, some c => substDown wild caps j (applyWild w.2 c st)
    | _, _ => none

/-- Post-match resolution of `assignConfig`: fill measurement, field and
tags from the rule, apply the empty-template fallbacks (last path
segment, `"value"`), then run the descending substitution loop. -/
def resolveRule (rule : Rule) (wspM : Chars) (caps : List Chars) : AssignResult :=
  match substDown (findToks rule.pattern) caps caps.length
      (if rule.measurement = [] then lastSegment wspM else rule.measurement,
       if rule.field = [] then str "value" else rule.field,
       tagsString rule.tags) with
  | none => .oob
  | some (m, f, t) => .ok m f t

/-- First rule (in declaration order) whose compiled pattern matches
anywhere in the normalized path, with its captured values. -/
def firstRuleMatch : List Rule → Chars → Option (Rule × List Chars)
  | [], _ => none
  | r :: rs, s =>
    match findFirst (compilePattern r.pattern) s with
    | some caps => some (r, caps)
    | none => firstRuleMatch rs s

/-- `assignConfig` of the newer program variant: normalize the file path,
find the first matching rule, resolve the templates. -/
def assignConfig (config : List Rule) (wspFile : Chars) : AssignResult :=
  match firstRuleMatch config (normalizePath wspFile) with
  | none => .unmatched
  | some (rule, caps) => resolveRule rule (normalizePath wspFile) caps

/-- `ListMigrations` restricted to what the claims need: the files whose
`assignConfig` matched, with their resolved strings, in input order.
Only these are exported by `main`. -/
def listMigrations (config : List Rule) (files : List Chars) :
    List (Chars × Chars × Chars × Chars) :=
  files.filterMap (fun f =>
    match assignConfig config f with
    | .ok m fl tg => some (f, m, fl, tg)
    | _ => none)

/-- One decoded sample: timestamp (seconds) and value.  Values are
modelled as exact rationals (the source uses 64-bit floats). -/
structure Pt where
  timestamp : Nat
  value : Rat
deriving DecidableEq, Repr

/-- One sub-archive of a series: its resolution (seconds per point) and
its decoded samples; `none` models a decode (`DumpArchive`) failure. -/
structure Archive where
  secondsPerPoint : Nat
  points : Option (List Pt)
deriving DecidableEq, Repr

/-- The resolved metadata of one series (its `MigrationData` strings). -/
structure SeriesMeta where
  measurement : Chars
  tags : Chars
  field : Chars
deriving DecidableEq, Repr

/-- One series to export: resolved metadata plus its archive contents;
`none` models a `whisper.Open` failure. -/
structure Series where
  meta : SeriesMeta
  archives : Option (List Archive)
deriving DecidableEq, Repr

/-- One encoded data line, structured: the five components concatenated
by `lineprotocol` (`measurement`, `tags`, a space, `field=value`, a
space, `timestamp`). -/
structure Line where
  measurement : Chars
  tags : Chars
  field : Chars
  value : Rat
  timestamp : Nat
deriving DecidableEq, Repr

/-- A line of a bucket file: the one-time context header written by
`LineProtocolContext` (database and retention name), or a data line. -/
inductive OutLine where
  | ctx (database retention : Chars)
  | pt (l : Line)
deriving DecidableEq, Repr

/-- A retention bucket: the path of its output file and the lines written
to it, in order. -/
structure Bucket where
  path : Chars
  lines : List OutLine
deriving DecidableEq, Repr

/-- The cross-series mutable state: the map from retention key to bucket
(as an association list in creation order) and the remaining FIFO list of
user-supplied retention names. -/
structure ExportState where
  buffers : List (Nat × Bucket)
  retentions : List Chars
deriving DecidableEq, Repr

/-- The run configuration relevant to the pipeline: compression flag,
export directory, database name, inclusive time bounds and the
zero-export flag. -/
structure Flags where
  gz : Bool
  exportPath : Chars
  database : Chars
  fromTs : Nat
  untilTs : Nat
  zeros : Bool
deriving DecidableEq, Repr

/-- Decimal string of a natural number (`fmt.Sprintf("%d", rate)`). -/
def decimalStr (n : Nat) : Chars := Nat.toDigits 10 n

/-- `RetentionPolicyName`: pop the next name off the FIFO retention list
when it is non-empty, otherwise use the decimal string of the rate.
Returns the name and the remaining list. -/
def retentionPolicyName (rets : List Chars) (rate : Nat) : Chars × List Chars :=
  match rets with
  | [] => (decimalStr rate, [])
  | r :: rs => (r, rs)

/-- Output path of a bucket: `exportPath / rate - retention .txt`,
with `.gz` appended when compression is on. -/
def bucketPath (gz : Bool) (exportPath : Chars) (rate : Nat) (retention : Chars) : Chars :=
  exportPath ++ '/' :: (decimalStr rate ++ '-' :: (retention ++ str ".txt")) ++
    (if gz then str ".gz" else [])

/-- Lookup in the bucket map (`buffers[rate]`). -/
def lookupKey : List (Nat × Bucket) → Nat → Option Bucket
  | [], _ => none
  | kb :: rest, r => if kb.1 = r then some kb.2 else lookupKey rest r

/-- `RetrieveMigrationBuffer`: return the state unchanged when a bucket
for the key already exists; otherwise resolve the retention name, create
the bucket file and write the one-time context header to it. -/
def retrieveBuffer (fl : Flags) (rate : Nat) (st : ExportState) : ExportState :=
  match lookupKey st.buffers rate with
  | some _ => st
  | none =>
    let rr := retentionPolicyName st.retentions rate
    { buffers := st.buffers ++
        [(rate, ⟨bucketPath fl.gz fl.exportPath rate rr.1, [.ctx fl.database rr.1]⟩)],
      retentions := rr.2 }

/-- Append one line to the bucket of the given key (no-op when the key
has no bucket; the pipeline always retrieves the bucket first). -/
def appendLine (rate : Nat) (l : OutLine) (st : ExportState) : ExportState :=
  { st with
    buffers := st.buffers.map (fun kb =>
      if kb.1 = rate then (kb.1, ⟨kb.2.path, kb.2.lines ++ [l]⟩) else kb) }

/-- `lineprotocol` of the newer variant: the data line for a point, with
the value rescaled to `ceil(value * secondsPerPoint)`
(`math.Ceil(point.Value * float64(factor))`, exact-rational model;
`Rat.ceil` is the executable ceiling, proved equal to `⌈⌉` below). -/
def lineprotocol (md : SeriesMeta) (p : Pt) (factor : Nat) : Line :=
  ⟨md.measurement, md.tags, md.field, ((p.value * (factor : Rat)).ceil : Rat), p.timestamp⟩

/-- `lineprotocol` of the older variant of the program (the one without
retention buckets): the value is emitted unchanged, with no factor. -/
def lineprotocolV1 (md : SeriesMeta) (p : Pt) : Line :=
  ⟨md.measurement, md.tags, md.field, p.value, p.timestamp⟩

/-- The per-point body of the export loop: skip zero values unless
zero-export is on, skip timestamps outside the inclusive bounds,
otherwise encode and append to the bucket of the sub-archive's key. -/
def writePoint (fl : Flags) (md : SeriesMeta) (factor : Nat) (p : Pt)
    (st : ExportState) : ExportState :=
  if fl.zeros = false ∧ p.value = 0 then st
  else if p.timestamp < fl.fromTs ∨ p.timestamp > fl.untilTs then st
  else appendLine factor (.pt (lineprotocol md p factor)) st

/-- The points loop of `export` for one sub-archive. -/
def writePoints (fl : Flags) (md : SeriesMeta) (factor : Nat) (pts : List Pt)
    (st : ExportState) : ExportState :=
  pts.foldl (fun st p => writePoint fl md factor p st) st

/-- One sub-archive of `export`: retrieve (or create) the bucket for its
key first, then decode; a decode failure skips only this sub-archive. -/
def exportArchive (fl : Flags) (md : SeriesMeta) (a : Archive)
    (st : ExportState) : ExportState :=
  let st1 := retrieveBuffer fl a.secondsPerPoint st
  match a.points with
  | none => st1
  | some pts => writePoints fl md a.secondsPerPoint pts st1

/-- `export` for one series: an open failure abandons the series with
the state unchanged; otherwise every sub-archive is processed in order. -/
def exportSeries (fl : Flags) (s : Series) (st : ExportState) : ExportState :=
  match s.archives with
  | none => st
  | some arcs => arcs.foldl (fun st a => exportArchive fl s.meta a st) st

/-- The export loop of `main`: drain the series list in order through the
shared bucket state. -/
def runAll (fl : Flags) (series : List Series) (st : ExportState) : ExportState :=
  series.foldl (fun st s => exportSeries fl s st) st

/-- A sample is kept (claim-side characterization): the zero-export flag
is on or the value is nonzero, and the timestamp lies within the
inclusive bounds. -/
def keepPoint (fl : Flags) (p : Pt) : Prop :=
  (fl.zeros = true ∨ p.value ≠ 0) ∧ fl.fromTs ≤ p.timestamp ∧ p.timestamp ≤ fl.untilTs

instance (fl : Flags) (p : Pt) : Decidable (keepPoint fl p) := by
  unfold keepPoint; infer_instance

/-- The data lines a sub-archive contributes: its kept points, encoded,
in order. -/
def qualLines (fl : Flags) (md : SeriesMeta) (factor : Nat) (pts : List Pt) : List OutLine :=
  (pts.filter (fun p => decide (keepPoint fl p))).map (fun p => .pt (lineprotocol md p factor))

/-- Append a list of lines to one bucket, in order. -/
def appendLines (rate : Nat) (ls : List OutLine) (st : ExportState) : ExportState :=
  ls.foldl (fun st l => appendLine rate l st) st

theorem lookupKey_append (l1 l2 : List (Nat × Bucket)) (k : Nat) :
    lookupKey (l1 ++ l2) k =
      (match lookupKey l1 k with
       | some b => some b
       | none => lookupKey l2 k) := by
  induction l1 with
  | nil => simp [lookupKey]
  | cons kb rest ih =>
    simp only [List.cons_append, lookupKey]
    by_cases h : kb.1 = k <;> simp [h, ih]

theorem lookupKey_appendLine (st : ExportState) (rate : Nat) (l : OutLine) (k : Nat) :
    lookupKey (appendLine rate l st).buffers k =
      (if k = rate then (lookupKey st.buffers k).map (fun b => ⟨b.path, b.lines ++ [l]⟩)
       else lookupKey st.buffers k) := by
  unfold appendLine
  induction st.buffers with
  | nil => simp [lookupKey]
  | cons kb rest ih =>
    simp only [List.map_cons, lookupKey]
    by_cases hk : kb.1 = rate
    · by_cases hkk : k = rate
      · subst hkk; simp [hk, lookupKey]
      · have h2 : ¬(rate = k) := fun hh => hkk hh.symm
        simp [hk, hkk, h2, lookupKey, ih]
    · by_cases hkb : kb.1 = k
      · have hkk : ¬(k = rate) := by rw [← hkb]; exact hk
        simp [hkb, hkk, lookupKey, hk]
      · simp [hkb, lookupKey, hk, ih]

theorem retentions_appendLine (st : ExportState) (rate : Nat) (l : OutLine) :
    (appendLine rate l st).retentions = st.retentions := rfl

theorem lookupKey_appendLines (st : ExportState) (rate : Nat) (ls : List OutLine) :
    lookupKey (appendLines rate ls st).buffers rate =
      (lookupKey st.buffers rate).map (fun b => ⟨b.path, b.lines ++ ls⟩) := by
  induction ls generalizing st with
  | nil =>
    simp only [appendLines, List.foldl_nil]
    cases h : lookupKey st.buffers rate <;> simp
  | cons l rest ih =>
    simp only [appendLines, List.foldl_cons] at ih ⊢
    rw [ih (appendLine rate l st), lookupKey_appendLine]
    cases h : lookupKey st.buffers rate <;> simp

theorem lookupKey_appendLines_ne (st : ExportState) (rate : Nat) (ls : List OutLine)
    (k : Nat) (hk : k ≠ rate) :
    lookupKey (appendLines rate ls st).buffers k = lookupKey st.buffers k := by
  induction ls generalizing st with
  | nil => rfl
  | cons l rest ih =>
    simp only [appendLines, List.foldl_cons] at ih ⊢
    rw [ih (appendLine rate l st), lookupKey_appendLine]
    simp [hk]

theorem retentions_appendLines (st : ExportState) (rate : Nat) (ls : List OutLine) :
    (appendLines rate ls st).retentions = st.retentions := by
  induction ls generalizing st with
  | nil => rfl
  | cons l rest ih => simpa [appendLines] using ih (appendLine rate l st)

/-- The points loop equals a bulk append of the kept, encoded points. -/
theorem writePoints_append (fl : Flags) (md : SeriesMeta) (factor : Nat)
    (pts : List Pt) (st : ExportState) :
    writePoints fl md factor pts st = appendLines factor (qualLines fl md factor pts) st := by
  induction pts generalizing st with
  | nil => rfl
  | cons p rest ih =>
    by_cases hkeep : keepPoint fl p
    · have hwp : writePoint fl md factor p st =
          appendLine factor (.pt (lineprotocol md p factor)) st := by
        unfold writePoint
        obtain ⟨h1, h2, h3⟩ := hkeep
        rw [if_neg, if_neg]
        · omega
        · rintro ⟨hz, hv⟩
          rcases h1 with h1 | h1
          · rw [h1] at hz; exact Bool.noConfusion hz
          · exact h1 hv
      have hq : qualLines fl md factor (p :: rest) =
          .pt (lineprotocol md p factor) :: qualLines fl md factor rest := by
        simp [qualLines, List.filter_cons, hkeep]
      rw [show writePoints fl md factor (p :: rest) st =
            writePoints fl md factor rest (writePoint fl md factor p st) from rfl,
          hwp, hq, ih]
      rfl
    · have hwp : writePoint fl md factor p st = st := by
        unfold writePoint
        unfold keepPoint at hkeep
        by_cases hz : fl.zeros = false ∧ p.value = 0
        · rw [if_pos hz]
        · rw [if_neg hz, if_pos]
          push_neg at hkeep
          rcases Decidable.em (fl.zeros = true ∨ p.value ≠ 0) with hh | hh
          · have := hkeep hh
            omega
          · push_neg at hh
            exact absurd ⟨Bool.eq_false_iff.mpr (fun ht => hh.1 ht), hh.2⟩ hz
      have hq : qualLines fl md factor (p :: rest) = qualLines fl md factor rest := by
        simp [qualLines, List.filter_cons, hkeep]
      rw [show writePoints fl md factor (p :: rest) st =
            writePoints fl md factor rest (writePoint fl md factor p st) from rfl,
          hwp, hq, ih]

/-- The executable ceiling used in `lineprotocol` is the mathematical
ceiling. -/
theorem ratCeil_eq_ceil (q : Rat) : q.ceil = ⌈q⌉ := by
  by_cases hden : q.den = 1
  · have hq : ((q.num : Rat)) = q := (Rat.den_eq_one_iff q).mp hden
    have h1 : q.ceil = q.num := by unfold Rat.ceil; rw [if_pos hden]
    rw [h1]
    conv_rhs => rw [← hq]
    rw [Int.ceil_intCast]
  · have h1 : q.ceil = ⌊q⌋ + 1 := by
      unfold Rat.ceil
      rw [if_neg hden, Rat.floor_def]
    have hne : ((⌊q⌋ : Rat)) ≠ q := by
      intro h
      exact hden (by rw [← h]; exact Rat.den_intCast _)
    have hlt : ((⌊q⌋ : Rat)) < q := lt_of_le_of_ne (Int.floor_le q) hne
    have hub : q < ((⌊q⌋ : Rat)) + 1 := Int.lt_floor_add_one q
    rw [h1]
    symm
    rw [Int.ceil_eq_iff]
    constructor
    · push_cast
      simpa using hlt
    · push_cast
      exact le_of_lt hub

theorem retrieveBuffer_existing (fl : Flags) (rate : Nat) (st : ExportState) (b : Bucket)
    (h : lookupKey st.buffers rate = some b) : retrieveBuffer fl rate st = st := by
  unfold retrieveBuffer
  rw [h]

theorem retrieveBuffer_new (fl : Flags) (rate : Nat) (st : ExportState)
    (h : lookupKey st.buffers rate = none) :
    retrieveBuffer fl rate st =
      { buffers := st.buffers ++
          [(rate, ⟨bucketPath fl.gz fl.exportPath rate (retentionPolicyName st.retentions rate).1,
                   [.ctx fl.database (retentionPolicyName st.retentions rate).1]⟩)],
        retentions := (retentionPolicyName st.retentions rate).2 } := by
  unfold retrieveBuffer
  rw [h]

theorem lookupKey_retrieve_self (fl : Flags) (rate : Nat) (st : ExportState) :
    ∃ b, lookupKey (retrieveBuffer fl rate st).buffers rate = some b := by
  cases h : lookupKey st.buffers rate with
  | some b => exact ⟨b, by rw [retrieveBuffer_existing fl rate st b h, h]⟩
  | none =>
    rw [retrieveBuffer_new fl rate st h]
    refine ⟨⟨bucketPath fl.gz fl.exportPath rate (retentionPolicyName st.retentions rate).1,
             [.ctx fl.database (retentionPolicyName st.retentions rate).1]⟩, ?_⟩
    simp only [lookupKey_append, h]
    simp [lookupKey]

theorem lookupKey_retrieve_preserve (fl : Flags) (rate : Nat) (st : ExportState)
    (k : Nat) (b : Bucket) (h : lookupKey st.buffers k = some b) :
    lookupKey (retrieveBuffer fl rate st).buffers k = some b := by
  cases hr : lookupKey st.buffers rate with
  | some b2 => rw [retrieveBuffer_existing fl rate st b2 hr, h]
  | none =>
    rw [retrieveBuffer_new fl rate st hr]
    simp only [lookupKey_append, h]

/-- One series carrying a single sub-archive at retention key `k` whose
samples decode successfully. -/
def singleKeySeries (k : Nat) (mp : SeriesMeta × List Pt) : Series :=
  ⟨mp.1, some [⟨k, some mp.2⟩]⟩

theorem exportSeries_singleKey (fl : Flags) (k : Nat) (mp : SeriesMeta × List Pt)
    (st : ExportState) :
    exportSeries fl (singleKeySeries k mp) st =
      appendLines k (qualLines fl mp.1 k mp.2) (retrieveBuffer fl k st) := by
  show exportArchive fl mp.1 ⟨k, some mp.2⟩ st = _
  show writePoints fl mp.1 k mp.2 (retrieveBuffer fl k st) = _
  exact writePoints_append fl mp.1 k mp.2 (retrieveBuffer fl k st)

theorem runAll_shared_key (fl : Flags) (k : Nat) (ss : List (SeriesMeta × List Pt))
    (st : ExportState) (b : Bucket) (hb : lookupKey st.buffers k = some b) :
    lookupKey (runAll fl (ss.map (singleKeySeries k)) st).buffers k =
      some ⟨b.path, b.lines ++ ss.flatMap (fun mp => qualLines fl mp.1 k mp.2)⟩ := by
  induction ss generalizing st b with
  | nil =>
    simpa [runAll] using hb
  | cons mp rest ih =>
    have hstep : runAll fl ((mp :: rest).map (singleKeySeries k)) st =
        runAll fl (rest.map (singleKeySeries k)) (exportSeries fl (singleKeySeries k mp) st) := rfl
    rw [hstep, exportSeries_singleKey, retrieveBuffer_existing fl k st b hb]
    have hb2 : lookupKey (appendLines k (qualLines fl mp.1 k mp.2) st).buffers k =
        some ⟨b.path, b.lines ++ qualLines fl mp.1 k mp.2⟩ := by
      rw [lookupKey_appendLines, hb]
      rfl
    rw [ih _ _ hb2]
    simp [List.append_assoc]

/-- Run configuration used by the concrete end-to-end scenarios. -/
def flD : Flags := ⟨false, str "/exp", str "graphite", 0, 100000, false⟩

/-- First series of scenario D: one sub-archive at sixty seconds per
point, one sample. -/
def serD1 : Series := ⟨⟨str "m1", [], str "value"⟩, some [⟨60, some [⟨100, 5⟩]⟩]⟩

/-- Second series of scenario D. -/
def serD2 : Series := ⟨⟨str "m2", [], str "value"⟩, some [⟨60, some [⟨200, 7⟩]⟩]⟩

/-- Claim C2: on the first bucket request for a retention key the
bucket's name is the next name popped from the FIFO retention list when
that list is non-empty, and otherwise the decimal string of the key; and
(scenario D) with an empty FIFO list, two series whose sub-archives both
have sixty seconds per point are routed to one bucket named `60` — a
single file with a single header followed by the samples of both
series. -/
theorem c2_bucket_naming :
    (∀ (r : Chars) (rs : List Chars) (rate : Nat),
       retentionPolicyName (r :: rs) rate = (r, rs)) ∧
    (∀ rate : Nat, retentionPolicyName [] rate = (decimalStr rate, [])) ∧
    (∀ (fl : Flags) (rate : Nat) (st : ExportState),
       lookupKey st.buffers rate = none →
       retrieveBuffer fl rate st =
         { buffers := st.buffers ++
             [(rate, ⟨bucketPath fl.gz fl.exportPath rate (retentionPolicyName st.retentions rate).1,
                      [.ctx fl.database (retentionPolicyName st.retentions rate).1]⟩)],
           retentions := (retentionPolicyName st.retentions rate).2 }) ∧
    runAll flD [serD1, serD2] ⟨[], []⟩ =
      ⟨[(60, ⟨str "/exp/60-60.txt",
          [.ctx (str "graphite") (str "60"),
           .pt ⟨str "m1", [], str "value", 300, 100⟩,
           .pt ⟨str "m2", [], str "value", 420, 200⟩]⟩)], []⟩ := by
  refine ⟨fun r rs rate => rfl, fun rate => rfl, retrieveBuffer_new, ?_⟩
  have h1 : lineprotocol ⟨str "m1", [], str "value"⟩ ⟨100, 5⟩ 60 =
      ⟨str "m1", [], str "value", 300, 100⟩ := by
    unfold lineprotocol; norm_num [Rat.ceil]
  have h2 : lineprotocol ⟨str "m2", [], str "value"⟩ ⟨200, 7⟩ 60 =
      ⟨str "m2", [], str "value", 420, 200⟩ := by
    unfold lineprotocol; norm_num [Rat.ceil]
  simp only [runAll, exportSeries, exportArchive, retrieveBuffer, lookupKey,
    retentionPolicyName, writePoints, writePoint,
    appendLine, appendLines, h1, h2, flD, serD1, serD2, List.foldl_cons, List.foldl_nil]
  norm_num [h1, h2, keepPoint]
  decide

/-- Witness for C2: a concrete first request (the empty initial state has
no bucket for key sixty) creates the bucket with the decimal name. -/
theorem c2_witness :
    lookupKey (ExportState.mk [] []).buffers 60 = none ∧
    retrieveBuffer flD 60 ⟨[], []⟩ =
      { buffers := [(60, ⟨bucketPath flD.gz flD.exportPath 60 (retentionPolicyName [] 60).1,
                          [.ctx flD.database (retentionPolicyName [] 60).1]⟩)],
        retentions := (retentionPolicyName [] 60).2 } :=
  ⟨rfl, c2_bucket_naming.2.2.1 flD 60 ⟨[], []⟩ rfl⟩

/-- Claim C3: bucket lookup is idempotent per key (a later request for an
existing key returns the state unchanged — no re-open, no second
header), and for any non-empty sequence of series sharing one retention
key the bucket holds the header exactly once followed by exactly the
qualifying samples of all those series in processing order. -/
theorem c3_bucket_idempotent :
    (∀ (fl : Flags) (rate : Nat) (st : ExportState) (b : Bucket),
       lookupKey st.buffers rate = some b → retrieveBuffer fl rate st = st) ∧
    (∀ (fl : Flags) (k : Nat) (rets : List Chars) (mp : SeriesMeta × List Pt)
       (ss : List (SeriesMeta × List Pt)),
       lookupKey (runAll fl ((mp :: ss).map (singleKeySeries k)) ⟨[], rets⟩).buffers k =
         some ⟨bucketPath fl.gz fl.exportPath k (retentionPolicyName rets k).1,
               .ctx fl.database (retentionPolicyName rets k).1 ::
                 (mp :: ss).flatMap (fun mp => qualLines fl mp.1 k mp.2)⟩) := by
  refine ⟨retrieveBuffer_existing, ?_⟩
  intro fl k rets mp ss
  have hstep : runAll fl ((mp :: ss).map (singleKeySeries k)) ⟨[], rets⟩ =
      runAll fl (ss.map (singleKeySeries k))
        (exportSeries fl (singleKeySeries k mp) ⟨[], rets⟩) := rfl
  have hnone : lookupKey (ExportState.mk [] rets).buffers k = none := rfl
  rw [hstep, exportSeries_singleKey, retrieveBuffer_new fl k _ hnone]
  have hb : lookupKey (appendLines k (qualLines fl mp.1 k mp.2)
      (ExportState.mk ([] ++ [(k, ⟨bucketPath fl.gz fl.exportPath k (retentionPolicyName rets k).1,
        [.ctx fl.database (retentionPolicyName rets k).1]⟩)]) (retentionPolicyName rets k).2)).buffers k =
      some ⟨bucketPath fl.gz fl.exportPath k (retentionPolicyName rets k).1,
            [.ctx fl.database (retentionPolicyName rets k).1] ++ qualLines fl mp.1 k mp.2⟩ := by
    rw [lookupKey_appendLines]
    simp [lookupKey]
  rw [runAll_shared_key fl k ss _ _ hb]
  simp

/-- Witness for C3: retrieving key sixty twice from the empty state
leaves the state of the first retrieval unchanged. -/
theorem c3_witness :
    lookupKey (retrieveBuffer flD 60 ⟨[], []⟩).buffers 60 =
      some ⟨bucketPath flD.gz flD.exportPath 60 (retentionPolicyName [] 60).1,
            [.ctx flD.database (retentionPolicyName [] 60).1]⟩ ∧
    retrieveBuffer flD 60 (retrieveBuffer flD 60 ⟨[], []⟩) = retrieveBuffer flD 60 ⟨[], []⟩ :=
  ⟨rfl, c3_bucket_idempotent.1 flD 60 _ _ rfl⟩

/-- Claim C4: for every sample of every sub-archive, the sample is
excluded exactly when its value is zero and zero-export is off, or when
its timestamp is strictly below the lower bound or strictly above the
upper bound (the bounds are inclusive, and apply regardless of the
zero-export flag); all other samples are encoded and written, in order,
to the sub-archive's bucket. -/
theorem c4_filtering :
    (∀ (fl : Flags) (md : SeriesMeta) (k : Nat) (pts : List Pt) (st : ExportState),
       exportArchive fl md ⟨k, some pts⟩ st =
         appendLines k (qualLines fl md k pts) (retrieveBuffer fl k st)) ∧
    (∀ (fl : Flags) (p : Pt),
       keepPoint fl p ↔
         ¬((p.value = 0 ∧ fl.zeros = false) ∨
           p.timestamp < fl.fromTs ∨ p.timestamp > fl.untilTs)) := by
  constructor
  · intro fl md k pts st
    exact writePoints_append fl md k pts (retrieveBuffer fl k st)
  · intro fl p
    unfold keepPoint
    constructor
    · rintro ⟨h1, h2, h3⟩ hcon
      rcases hcon with ⟨hv, hz⟩ | h | h
      · rcases h1 with h1 | h1
        · rw [h1] at hz; exact Bool.noConfusion hz
        · exact h1 hv
      · omega
      · omega
    · intro h
      refine ⟨?_, ?_, ?_⟩
      · cases hzz : fl.zeros with
        | true => exact Or.inl rfl
        | false => exact Or.inr (fun hv => h (Or.inl ⟨hv, hzz⟩))
      · by_contra hlt
        exact h (Or.inr (Or.inl (by omega)))
      · by_contra hgt
        exact h (Or.inr (Or.inr (by omega)))

/-- Claim C5: with rescaling (the retention-bucketed program variant),
every encoded sample of a sub-archive with resolution `k` carries the
value `ceil(value * k)`; without rescaling (the older program variant's
encoder), the encoded value is the sample's value unchanged. -/
theorem c5_rescaling :
    (∀ (fl : Flags) (md : SeriesMeta) (k : Nat) (pts : List Pt) (st : ExportState),
       writePoints fl md k pts st =
         appendLines k
           ((pts.filter (fun p => decide (keepPoint fl p))).map
             (fun p => .pt ⟨md.measurement, md.tags, md.field,
                            ((⌈p.value * (k : Rat)⌉ : Int) : Rat), p.timestamp⟩)) st) ∧
    (∀ (md : SeriesMeta) (p : Pt), (lineprotocolV1 md p).value = p.value) := by
  constructor
  · intro fl md k pts st
    rw [writePoints_append fl md k pts st]
    unfold qualLines lineprotocol
    rw [show (fun p : Pt => OutLine.pt ⟨md.measurement, md.tags, md.field,
          (((p.value * (k : Rat)).ceil : Int) : Rat), p.timestamp⟩) =
        (fun p : Pt => OutLine.pt ⟨md.measurement, md.tags, md.field,
          ((⌈p.value * (k : Rat)⌉ : Int) : Rat), p.timestamp⟩) from
      funext (fun p => by rw [ratCeil_eq_ceil])]
  · intro md p
    rfl

/-- Claim C8: archive errors are non-fatal and local.  An open failure
abandons the series with the shared state untouched and the pipeline
continues with the next series; a decode failure skips only that
sub-archive (its bucket retrieval has already happened) and processing
continues with the remaining sub-archives of the same series. -/
theorem c8_nonfatal :
    (∀ (fl : Flags) (meta : SeriesMeta) (st : ExportState),
       exportSeries fl ⟨meta, none⟩ st = st) ∧
    (∀ (fl : Flags) (s : Series) (ss : List Series) (st : ExportState),
       s.archives = none → runAll fl (s :: ss) st = runAll fl ss st) ∧
    (∀ (fl : Flags) (md : SeriesMeta) (a : Archive) (arcs : List Archive) (st : ExportState),
       a.points = none →
       exportSeries fl ⟨md, some (a :: arcs)⟩ st =
         exportSeries fl ⟨md, some arcs⟩ (retrieveBuffer fl a.secondsPerPoint st)) := by
  refine ⟨fun fl meta st => rfl, ?_, ?_⟩
  · intro fl s ss st h
    cases s with
    | mk meta arch =>
      cases h
      rfl
  · intro fl md a arcs st h
    cases a with
    | mk k pts =>
      cases h
      rfl

/-- Witness for C8: a series whose archive open fails leaves the run
unchanged, and a first sub-archive whose decode fails only contributes
its bucket retrieval. -/
theorem c8_witness :
    (Series.mk ⟨str "m1", [], str "value"⟩ none).archives = none ∧
    (Archive.mk 60 none).points = none ∧
    runAll flD [⟨⟨str "m1", [], str "value"⟩, none⟩, serD2] ⟨[], []⟩ =
      runAll flD [serD2] ⟨[], []⟩ ∧
    exportSeries flD ⟨⟨str "m1", [], str "value"⟩, some [⟨60, none⟩, ⟨30, some []⟩]⟩ ⟨[], []⟩ =
      exportSeries flD ⟨⟨str "m1", [], str "value"⟩, some [⟨30, some []⟩]⟩
        (retrieveBuffer flD 60 ⟨[], []⟩) :=
  ⟨rfl, rfl,
   c8_nonfatal.2.1 flD ⟨⟨str "m1", [], str "value"⟩, none⟩ [serD2] ⟨[], []⟩ rfl,
   c8_nonfatal.2.2 flD ⟨str "m1", [], str "value"⟩ ⟨60, none⟩ [⟨30, some []⟩] ⟨[], []⟩ rfl⟩

/-- Every bucket of the state begins with a context header line. -/
def WellHeaded (st : ExportState) : Prop :=
  ∀ (k : Nat) (b : Bucket), lookupKey st.buffers k = some b →
    ∃ db ret rest, b.lines = .ctx db ret :: rest

theorem wellHeaded_appendLine (rate : Nat) (l : OutLine) (st : ExportState)
    (h : WellHeaded st) : WellHeaded (appendLine rate l st) := by
  intro k b hb
  rw [lookupKey_appendLine] at hb
  by_cases hk : k = rate
  · rw [if_pos hk] at hb
    cases hlook : lookupKey st.buffers k with
    | none => rw [hlook] at hb; exact absurd hb (by simp)
    | some b0 =>
      rw [hlook] at hb
      have hb2 : b = ⟨b0.path, b0.lines ++ [l]⟩ := by
        have := hb.symm
        simpa using this
      obtain ⟨db, ret, rest, hr⟩ := h k b0 hlook
      refine ⟨db, ret, rest ++ [l], ?_⟩
      rw [hb2]
      show b0.lines ++ [l] = _
      rw [hr]
      rfl
  · rw [if_neg hk] at hb
    exact h k b hb

theorem wellHeaded_appendLines (rate : Nat) (ls : List OutLine) (st : ExportState)
    (h : WellHeaded st) : WellHeaded (appendLines rate ls st) := by
  induction ls generalizing st with
  | nil => exact h
  | cons l rest ih => exact ih (appendLine rate l st) (wellHeaded_appendLine rate l st h)

theorem wellHeaded_retrieveBuffer (fl : Flags) (rate : Nat) (st : ExportState)
    (h : WellHeaded st) : WellHeaded (retrieveBuffer fl rate st) := by
  cases hr : lookupKey st.buffers rate with
  | some b => rw [retrieveBuffer_existing fl rate st b hr]; exact h
  | none =>
    rw [retrieveBuffer_new fl rate st hr]
    intro k b hb
    simp only [lookupKey_append] at hb
    cases hlook : lookupKey st.buffers k with
    | some b0 =>
      rw [hlook] at hb
      cases hb
      exact h k b hlook
    | none =>
      rw [hlook] at hb
      simp only [lookupKey] at hb
      by_cases hk : rate = k
      · rw [if_pos hk] at hb
        cases hb
        exact ⟨fl.database, (retentionPolicyName st.retentions rate).1, [], rfl⟩
      · rw [if_neg hk] at hb
        exact absurd hb (by simp [lookupKey])

theorem wellHeaded_exportArchive (fl : Flags) (md : SeriesMeta) (a : Archive)
    (st : ExportState) (h : WellHeaded st) : WellHeaded (exportArchive fl md a st) := by
  unfold exportArchive
  cases a.points with
  | none => exact wellHeaded_retrieveBuffer fl a.secondsPerPoint st h
  | some pts =>
    show WellHeaded (writePoints fl md a.secondsPerPoint pts (retrieveBuffer fl a.secondsPerPoint st))
    rw [writePoints_append]
    exact wellHeaded_appendLines _ _ _ (wellHeaded_retrieveBuffer fl a.secondsPerPoint st h)

theorem wellHeaded_archivesFold (fl : Flags) (md : SeriesMeta) (arcs : List Archive)
    (st : ExportState) (h : WellHeaded st) :
    WellHeaded (arcs.foldl (fun st a => exportArchive fl md a st) st) := by
  induction arcs generalizing st with
  | nil => exact h
  | cons a rest ih => exact ih _ (wellHeaded_exportArchive fl md a st h)

theorem isSome_appendLines (rate : Nat) (ls : List OutLine) (st : ExportState)
    (k : Nat) (b : Bucket) (h : lookupKey st.buffers k = some b) :
    ∃ b2, lookupKey (appendLines rate ls st).buffers k = some b2 := by
  by_cases hk : k = rate
  · subst hk
    rw [lookupKey_appendLines, h]
    exact ⟨_, rfl⟩
  · rw [lookupKey_appendLines_ne st rate ls k hk, h]
    exact ⟨b, rfl⟩

theorem isSome_exportArchive (fl : Flags) (md : SeriesMeta) (a : Archive)
    (st : ExportState) (k : Nat) (b : Bucket) (h : lookupKey st.buffers k = some b) :
    ∃ b2, lookupKey (exportArchive fl md a st).buffers k = some b2 := by
  unfold exportArchive
  have h2 := lookupKey_retrieve_preserve fl a.secondsPerPoint st k b h
  cases a.points with
  | none => exact ⟨b, h2⟩
  | some pts =>
    show ∃ b2, lookupKey (writePoints fl md a.secondsPerPoint pts
      (retrieveBuffer fl a.secondsPerPoint st)).buffers k = some b2
    rw [writePoints_append]
    exact isSome_appendLines _ _ _ k b h2

theorem isSome_archivesFold (fl : Flags) (md : SeriesMeta) (arcs : List Archive)
    (st : ExportState) (k : Nat) (b : Bucket) (h : lookupKey st.buffers k = some b) :
    ∃ b2, lookupKey (arcs.foldl (fun st a => exportArchive fl md a st) st).buffers k = some b2 := by
  induction arcs generalizing st b with
  | nil => exact ⟨b, h⟩
  | cons a rest ih =>
    obtain ⟨b1, h1⟩ := isSome_exportArchive fl md a st k b h
    exact ih _ b1 h1

theorem isSome_exportArchive_self (fl : Flags) (md : SeriesMeta) (a : Archive)
    (st : ExportState) :
    ∃ b, lookupKey (exportArchive fl md a st).buffers a.secondsPerPoint = some b := by
  unfold exportArchive
  obtain ⟨b, hb⟩ := lookupKey_retrieve_self fl a.secondsPerPoint st
  cases a.points with
  | none => exact ⟨b, hb⟩
  | some pts =>
    show ∃ b2, lookupKey (writePoints fl md a.secondsPerPoint pts
      (retrieveBuffer fl a.secondsPerPoint st)).buffers a.secondsPerPoint = some b2
    rw [writePoints_append]
    exact isSome_appendLines _ _ _ _ b hb

/-- Claim C9: the retention bucket of a sub-archive is resolved before
decoding (a decode failure still performs the bucket creation), so after
exporting a series every one of its sub-archive keys has a bucket whose
file starts with the context header — even when the sub-archive decoded
nothing. -/
theorem c9_bucket_before_decode :
    (∀ (fl : Flags) (md : SeriesMeta) (a : Archive) (st : ExportState),
       a.points = none →
       exportArchive fl md a st = retrieveBuffer fl a.secondsPerPoint st) ∧
    (∀ (fl : Flags) (md : SeriesMeta) (arcs : List Archive) (a : Archive) (st : ExportState),
       WellHeaded st → a ∈ arcs →
       ∃ b, lookupKey (exportSeries fl ⟨md, some arcs⟩ st).buffers a.secondsPerPoint = some b ∧
            ∃ db ret rest, b.lines = .ctx db ret :: rest) := by
  constructor
  · intro fl md a st h
    unfold exportArchive
    rw [h]
  · intro fl md arcs a st hwh ha
    obtain ⟨l1, l2, rfl⟩ := List.append_of_mem ha
    have hsplit : exportSeries fl ⟨md, some (l1 ++ a :: l2)⟩ st =
        l2.foldl (fun st a => exportArchive fl md a st)
          (exportArchive fl md a (l1.foldl (fun st a => exportArchive fl md a st) st)) := by
      show (l1 ++ a :: l2).foldl (fun st a => exportArchive fl md a st) st = _
      rw [List.foldl_append]
      rfl
    rw [hsplit]
    obtain ⟨b1, hb1⟩ := isSome_exportArchive_self fl md a
      (l1.foldl (fun st a => exportArchive fl md a st) st)
    obtain ⟨b2, hb2⟩ := isSome_archivesFold fl md l2 _ _ b1 hb1
    refine ⟨b2, hb2, ?_⟩
    have hwh2 : WellHeaded (l2.foldl (fun st a => exportArchive fl md a st)
        (exportArchive fl md a (l1.foldl (fun st a => exportArchive fl md a st) st))) := by
      apply wellHeaded_archivesFold
      apply wellHeaded_exportArchive
      exact wellHeaded_archivesFold fl md l1 st hwh
    exact hwh2 a.secondsPerPoint b2 hb2

/-- Witness for C9: a single series with one decode-failing sub-archive
at key sixty still produces a bucket for key sixty starting with the
header. -/
theorem c9_witness :
    (Archive.mk 60 none).points = none ∧
    exportArchive flD ⟨str "m1", [], str "value"⟩ ⟨60, none⟩ ⟨[], []⟩ =
      retrieveBuffer flD 60 ⟨[], []⟩ ∧
    ∃ b, lookupKey (exportSeries flD ⟨⟨str "m1", [], str "value"⟩, some [⟨60, none⟩]⟩
           ⟨[], []⟩).buffers 60 = some b ∧
         ∃ db ret rest, b.lines = .ctx db ret :: rest :=
  ⟨rfl,
   c9_bucket_before_decode.1 flD ⟨str "m1", [], str "value"⟩ ⟨60, none⟩ ⟨[], []⟩ rfl,
   c9_bucket_before_decode.2 flD ⟨str "m1", [], str "value"⟩ [⟨60, none⟩] ⟨60, none⟩ ⟨[], []⟩
     (fun k b hb => absurd hb (by simp [lookupKey])) (by simp)⟩

theorem headTok_none_of_no_ws (name : Chars) (s : Chars)
    (h : ∀ c ∈ s, isWs c = false) : headTok name s = none := by
  unfold headTok
  split
  · rename_i w1 t
    have hw1 : isWs w1 = false := h w1 (by simp)
    simp [hw1]
  · rfl

theorem replTokF_id (name value : Chars) (fuel : Nat) (s : Chars)
    (h : ∀ c ∈ s, isWs c = false) : replTokF name value fuel s = s := by
  induction fuel generalizing s with
  | zero => rfl
  | succ fuel ih =>
    cases s with
    | nil => rfl
    | cons c s' =>
      have hnone : headTok name (c :: s') = none := headTok_none_of_no_ws name (c :: s') h
      simp only [replTokF, hnone]
      exact congrArg (c :: ·) (ih s' (fun c2 hc2 => h c2 (List.mem_cons_of_mem c hc2)))

theorem replTok_id (name value : Chars) (s : Chars)
    (h : ∀ c ∈ s, isWs c = false) : replTok name value s = s :=
  replTokF_id name value s.length s h

theorem substDown_preserves (wild : List (Chars × Chars)) (caps : List Chars) :
    ∀ (n : Nat) (m f t m' f' t' : Chars),
      substDown wild caps n (m, f, t) = some (m', f', t') →
      ((∀ c ∈ m, isWs c = false) → m' = m) ∧
      ((∀ c ∈ f, isWs c = false) → f' = f) := by
  intro n
  induction n with
  | zero =>
    intro m f t m' f' t' h
    simp only [substDown, Option.some.injEq, Prod.mk.injEq] at h
    exact ⟨fun _ => h.1.symm, fun _ => h.2.1.symm⟩
  | succ n ih =>
    intro m f t m' f' t' h
    simp only [substDown] at h
    cases hw : wild.get? n with
    | none => rw [hw] at h; exact absurd h (by simp)
    | some w =>
      cases hc : caps.get? n with
      | none => rw [hw, hc] at h; exact absurd h (by simp)
      | some c =>
        rw [hw, hc] at h
        simp only [applyWild] at h
        obtain ⟨ihm, ihf⟩ := ih _ _ _ _ _ _ h
        constructor
        · intro hm
          rw [ihm (by rw [replTok_id _ _ _ hm]; exact hm), replTok_id _ _ _ hm]
        · intro hf
          rw [ihf (by rw [replTok_id _ _ _ hf]; exact hf), replTok_id _ _ _ hf]

/-- The rule of end-to-end scenario A: pattern `stats.\x7b\x7bhost\x7d\x7d.load`,
empty measurement and field templates, no tags. -/
def ruleScenA : Rule := ⟨str "stats.\x7b\x7bhost\x7d\x7d.load", [], [], []⟩

/-- Claim C7 (amended): for a matched rule all of whose wildcard names
are nonempty and alphanumeric (the class on which the literal-name model
of the interpolated substitution regex is exact — a metacharacter name
such as an alternation bar would make the source's regex rewrite
unrelated text), an empty measurement template resolves the measurement
to the last dot-separated segment of the normalized path provided that
segment contains no whitespace (so no wildcard token can be formed in
it), and an empty field template resolves the field to `value`.
Scenario A holds as stated: pattern `stats.\x7b\x7bhost\x7d\x7d.load`
with empty templates on path `stats.server1.load` gives measurement
`load` and field `value`. -/
theorem c7_empty_template_defaults :
    (∀ (rule : Rule) (wspM : Chars) (caps : List Chars) (m f t : Chars),
       (∀ p ∈ findToks rule.pattern, p.2 ≠ [] ∧ ∀ c ∈ p.2, isAlnum c = true) →
       rule.measurement = [] →
       (∀ c ∈ lastSegment wspM, isWs c = false) →
       resolveRule rule wspM caps = .ok m f t → m = lastSegment wspM) ∧
    (∀ (rule : Rule) (wspM : Chars) (caps : List Chars) (m f t : Chars),
       (∀ p ∈ findToks rule.pattern, p.2 ≠ [] ∧ ∀ c ∈ p.2, isAlnum c = true) →
       rule.field = [] →
       resolveRule rule wspM caps = .ok m f t → f = str "value") ∧
    assignConfig [ruleScenA] (str "stats.server1.load") =
      .ok (str "load") (str "value") [] := by
  refine ⟨?_, ?_, by decide⟩
  · intro rule wspM caps m f t hnames hme hws h
    unfold resolveRule at h
    rw [if_pos hme] at h
    cases hsub : substDown (findToks rule.pattern) caps caps.length
        (lastSegment wspM, if rule.field = [] then str "value" else rule.field,
         tagsString rule.tags) with
    | none => rw [hsub] at h; exact absurd h (by simp)
    | some mft =>
      rw [hsub] at h
      obtain ⟨m0, f0, t0⟩ := mft
      simp only [AssignResult.ok.injEq] at h
      obtain ⟨hm, hf, ht⟩ := h
      subst hm
      exact (substDown_preserves _ _ _ _ _ _ _ _ _ hsub).1 hws
  · intro rule wspM caps m f t hnames hfe h
    unfold resolveRule at h
    rw [if_pos hfe] at h
    cases hsub : substDown (findToks rule.pattern) caps caps.length
        (if rule.measurement = [] then lastSegment wspM else rule.measurement,
         str "value", tagsString rule.tags) with
    | none => rw [hsub] at h; exact absurd h (by simp)
    | some mft =>
      rw [hsub] at h
      obtain ⟨m0, f0, t0⟩ := mft
      simp only [AssignResult.ok.injEq] at h
      obtain ⟨hm, hf, ht⟩ := h
      subst hf
      exact (substDown_preserves _ _ _ _ _ _ _ _ _ hsub).2 (by decide)

/-- Witness for C7: the general empty-template defaults applied to the
concrete rule and path of scenario A. -/
theorem c7_witness :
    str "load" = lastSegment (str "stats.server1.load") ∧
    str "value" = str "value" :=
  ⟨c7_empty_template_defaults.1 ruleScenA (str "stats.server1.load") [str "server1"]
     (str "load") (str "value") [] (by decide) rfl (by decide) (by decide),
   c7_empty_template_defaults.2.1 ruleScenA (str "stats.server1.load") [str "server1"]
     (str "load") (str "value") [] (by decide) rfl (by decide)⟩

theorem firstRuleMatch_none (config : List Rule) (s : Chars)
    (h : ∀ r ∈ config, findFirst (compilePattern r.pattern) s = none) :
    firstRuleMatch config s = none := by
  induction config with
  | nil => rfl
  | cons r rest ih =>
    have hr : findFirst (compilePattern r.pattern) s = none := h r (by simp)
    show (match findFirst (compilePattern r.pattern) s with
          | some caps => some (r, caps)
          | none => firstRuleMatch rest s) = none
    rw [hr]
    exact ih (fun r2 hr2 => h r2 (List.mem_cons_of_mem r hr2))

/-- Claim C6: rules are evaluated in declaration order and the first one
whose compiled matcher matches anywhere in the normalized path wins
(unanchored: a match at any position counts); when no rule matches, the
series is marked unmatched and never appears in the migration list, so
it is never exported. -/
theorem c6_first_match :
    (∀ (pre post : List Rule) (rule : Rule) (s : Chars) (caps : List Chars),
       (∀ r ∈ pre, findFirst (compilePattern r.pattern) s = none) →
       findFirst (compilePattern rule.pattern) s = some caps →
       firstRuleMatch (pre ++ rule :: post) s = some (rule, caps)) ∧
    (∀ (segs : List Seg) (s : Chars),
       (findFirst segs s).isSome ↔ ∃ i, (matchSegs segs (s.drop i)).isSome) ∧
    (∀ (config : List Rule) (f : Chars),
       (∀ r ∈ config, findFirst (compilePattern r.pattern) (normalizePath f) = none) →
       assignConfig config f = .unmatched ∧
       ∀ (files : List Chars) (x : Chars × Chars × Chars × Chars),
         x ∈ listMigrations config files → x.1 ≠ f) := by
  refine ⟨?_, ?_, ?_⟩
  · intro pre post rule s caps hpre hsome
    induction pre with
    | nil =>
      show (match findFirst (compilePattern rule.pattern) s with
            | some caps => some (rule, caps)
            | none => firstRuleMatch post s) = some (rule, caps)
      rw [hsome]
    | cons r pre' ih =>
      have hr : findFirst (compilePattern r.pattern) s = none := hpre r (by simp)
      show (match findFirst (compilePattern r.pattern) s with
            | some caps => some (r, caps)
            | none => firstRuleMatch (pre' ++ rule :: post) s) = some (rule, caps)
      rw [hr]
      exact ih (fun r2 hr2 => hpre r2 (List.mem_cons_of_mem r hr2))
  · intro segs s
    induction s with
    | nil =>
      constructor
      · intro h
        exact ⟨0, h⟩
      · rintro ⟨i, hi⟩
        unfold findFirst
        simpa using hi
    | cons c s' ih =>
      constructor
      · intro h
        cases hm : matchSegs segs (c :: s') with
        | some caps => exact ⟨0, by simp [hm]⟩
        | none =>
          have hh := h
          unfold findFirst at hh
          rw [hm] at hh
          obtain ⟨i, hi⟩ := ih.mp hh
          exact ⟨i + 1, hi⟩
      · rintro ⟨i, hi⟩
        cases hm : matchSegs segs (c :: s') with
        | some caps =>
          unfold findFirst
          rw [hm]
          rfl
        | none =>
          unfold findFirst
          rw [hm]
          apply ih.mpr
          cases i with
          | zero =>
            rw [List.drop_zero, hm] at hi
            exact absurd hi (by simp)
          | succ j => exact ⟨j, hi⟩
  · intro config f hnone
    have hfr : firstRuleMatch config (normalizePath f) = none :=
      firstRuleMatch_none config (normalizePath f) hnone
    have hassign : assignConfig config f = .unmatched := by
      unfold assignConfig
      rw [hfr]
    refine ⟨hassign, ?_⟩
    intro files x hx hxf
    obtain ⟨f', hf', hmatch⟩ := List.mem_filterMap.mp hx
    cases hac : assignConfig config f' with
    | unmatched => rw [hac] at hmatch; exact absurd hmatch (by simp)
    | oob => rw [hac] at hmatch; exact absurd hmatch (by simp)
    | ok m fl tg =>
      rw [hac] at hmatch
      simp only [Option.some.injEq] at hmatch
      have hx1 : x.1 = f' := by rw [← hmatch]
      rw [hxf] at hx1
      rw [← hx1] at hac
      rw [hac] at hassign
      exact absurd hassign (by simp)

/-- Witness for C6: the scenario-A rule is returned as the first match on
its path, and a path matching no rule is excluded from the migration
list. -/
theorem c6_witness :
    firstRuleMatch ([] ++ ruleScenA :: []) (str "stats.server1.load") =
      some (ruleScenA, [str "server1"]) ∧
    (assignConfig [ruleScenA] (str "nomatch") = .unmatched ∧
     ∀ (files : List Chars) (x : Chars × Chars × Chars × Chars),
       x ∈ listMigrations [ruleScenA] files → x.1 ≠ str "nomatch") :=
  ⟨c6_first_match.1 [] [] ruleScenA (str "stats.server1.load") [str "server1"]
     (by simp) (by decide),
   c6_first_match.2.2 [ruleScenA] (str "nomatch") (by decide)⟩

/-- The rule of end-to-end scenario B exactly as the claim writes it:
pattern `a.\x7b\x7bx\x7d\x7d.b.\x7b\x7by\x7d\x7d` and measurement template
`\x7b\x7bx\x7d\x7d_\x7b\x7by\x7d\x7d`, with no inner whitespace. -/
def ruleScenB : Rule :=
  ⟨str "a.\x7b\x7bx\x7d\x7d.b.\x7b\x7by\x7d\x7d",
   str "\x7b\x7bx\x7d\x7d_\x7b\x7by\x7d\x7d", [], []⟩

/-- The scenario-B rule with its wildcard tokens written in the form the
substitution step actually replaces (a single space inside the braces on
each side). -/
def ruleScenBsp : Rule :=
  ⟨str "a.\x7b\x7b x \x7d\x7d.b.\x7b\x7b y \x7d\x7d",
   str "\x7b\x7b x \x7d\x7d_\x7b\x7b y \x7d\x7d", [], []⟩

/-- Counterexample to C1 as stated: with the spaceless pattern
`a.\x7b\x7bx\x7d\x7d.b.\x7b\x7by\x7d\x7d`, the greedy wildcard finder
swallows `x\x7d\x7d.b.\x7b\x7by` as a single wildcard name, the compiled
matcher is `a\.([^.]+)`, so the path `a.10.b.20` captures only `["10"]`
(not `["10","20"]`), and the measurement template
`\x7b\x7bx\x7d\x7d_\x7b\x7by\x7d\x7d` is returned unsubstituted (not
`10_20`): the substitution regex requires a whitespace inside the
braces. -/
theorem c1_counterexample :
    firstRuleMatch [ruleScenB] (normalizePath (str "a.10.b.20")) =
      some (ruleScenB, [str "10"]) ∧
    assignConfig [ruleScenB] (str "a.10.b.20") =
      .ok (str "\x7b\x7bx\x7d\x7d_\x7b\x7by\x7d\x7d") (str "value") [] ∧
    firstRuleMatch [ruleScenB] (normalizePath (str "a.10.b.20")) ≠
      some (ruleScenB, [str "10", str "20"]) ∧
    assignConfig [ruleScenB] (str "a.10.b.20") ≠
      .ok (str "10_20") (str "value") [] := by
  refine ⟨by decide, by decide, by decide, by decide⟩

theorem substDown_eq_fold (wild : List (Chars × Chars)) (caps : List Chars) :
    ∀ (n : Nat) (st : Chars × Chars × Chars),
      n ≤ wild.length → n ≤ caps.length →
      substDown wild caps n st =
        some (((List.range n).reverse).foldl
          (fun acc j => applyWild ((wild.getD j ([], [])).2) (caps.getD j []) acc) st) := by
  intro n
  induction n with
  | zero => intro st _ _; rfl
  | succ n ih =>
    intro st hw hc
    have hwn : wild.get? n = some (wild.getD n ([], [])) := by
      rw [List.get?_eq_getElem?, List.getD_eq_getElem?_getD,
          List.getElem?_eq_getElem (show n < wild.length by omega)]
      rfl
    have hcn : caps.get? n = some (caps.getD n []) := by
      rw [List.get?_eq_getElem?, List.getD_eq_getElem?_getD,
          List.getElem?_eq_getElem (show n < caps.length by omega)]
      rfl
    show (match wild.get? n, caps.get? n with
          | some w, some c => substDown wild caps n (applyWild w.2 c st)
          | _, _ => none) = _
    rw [hwn, hcn]
    show substDown wild caps n (applyWild (wild.getD n ([], [])).2 (caps.getD n []) st) = _
    rw [ih _ (by omega) (by omega)]
    rw [List.range_succ, List.reverse_append]
    rfl

/-- Claim C1 (amended): with the wildcard tokens written in their
single-space form, the scenario-B rule
(pattern `a.\x7b\x7b x \x7d\x7d.b.\x7b\x7b y \x7d\x7d`, measurement
`\x7b\x7b x \x7d\x7d_\x7b\x7b y \x7d\x7d`) on the path `a.10.b.20`
captures `["10","20"]` and resolves the measurement to `10_20`; in
general the substitution loop runs over the wildcard indices from last
to first, replacing every occurrence of the i-th wildcard's token in
measurement, field and tags with the i-th captured value (the
descending-order fold below). -/
theorem c1_substitution :
    firstRuleMatch [ruleScenBsp] (normalizePath (str "a.10.b.20")) =
      some (ruleScenBsp, [str "10", str "20"]) ∧
    assignConfig [ruleScenBsp] (str "a.10.b.20") =
      .ok (str "10_20") (str "value") [] ∧
    (∀ (wild : List (Chars × Chars)) (caps : List Chars) (n : Nat)
       (st : Chars × Chars × Chars),
       n ≤ wild.length → n ≤ caps.length →
       substDown wild caps n st =
         some (((List.range n).reverse).foldl
           (fun acc j => applyWild ((wild.getD j ([], [])).2) (caps.getD j []) acc) st)) :=
  ⟨by decide, by decide, substDown_eq_fold⟩

/-- Witness for C1: the descending fold instantiated at the
scenario-B wildcards and captures reproduces the measurement `10_20`. -/
theorem c1_witness :
    2 ≤ (findToks ruleScenBsp.pattern).length ∧
    2 ≤ ([str "10", str "20"] : List Chars).length ∧
    substDown (findToks ruleScenBsp.pattern) [str "10", str "20"] 2
        (ruleScenBsp.measurement, str "value", []) =
      some (((List.range 2).reverse).foldl
        (fun acc j => applyWild (((findToks ruleScenBsp.pattern).getD j ([], [])).2)
          (([str "10", str "20"] : List Chars).getD j []) acc)
        (ruleScenBsp.measurement, str "value", [])) :=
  ⟨by decide, by decide,
   c1_substitution.2.2 (findToks ruleScenBsp.pattern) [str "10", str "20"] 2
     (ruleScenBsp.measurement, str "value", []) (by decide) (by decide)⟩

/-- A rule with two spaced wildcards and empty measurement and field
templates, used to exhibit the whitespace caveat of the empty-template
fallback. -/
def ruleTab : Rule := ⟨str "\x7b\x7b host \x7d\x7d.\x7b\x7b y \x7d\x7d", [], [], []⟩

/-- Counterexample to C7 as stated: path normalization replaces spaces
but not tabs, so a last path segment of the form
`\x7b\x7b<tab>host<tab>\x7d\x7d` is a well-formed substitution token; the
fallback measurement taken from it is then rewritten by the wildcard
substitution (here to the first captured value `c`), and the resolved
measurement is no longer the last segment of the normalized path. -/
theorem c7_counterexample :
    ruleTab.measurement = [] ∧
    assignConfig [ruleTab] (str "c.\x7b\x7b\thost\t\x7d\x7d") =
      .ok (str "c") (str "value") [] ∧
    str "c" ≠ lastSegment (normalizePath (str "c.\x7b\x7b\thost\t\x7d\x7d")) := by
  refine ⟨rfl, by decide, by decide⟩

/-- Abstract syntax of a configuration pattern for the safety claim: a
sequence of literal characters and wildcard tokens. -/
inductive PatSeg where
  | litc (c : Char)
  | tok (name : Chars)
deriving DecidableEq, Repr

/-- Concrete pattern text of an abstract pattern: each token is written
in its single-space form. -/
def renderPat : List PatSeg → Chars
  | [] => []
  | .litc c :: rest => c :: renderPat rest
  | .tok n :: rest => '{' :: '{' :: ' ' :: (n ++ ' ' :: '}' :: '}' :: renderPat rest)

/-- Well-formed pattern for the safety claim: literals are alphanumeric
or a dot (no other regex metacharacter), token names are nonempty and
alphanumeric. -/
def patSegWF : PatSeg → Bool
  | .litc c => isAlnum c || c = '.'
  | .tok n => !n.isEmpty && n.all isAlnum

/-- A pattern is well formed when all its elements are. -/
def patWF (ps : List PatSeg) : Bool := ps.all patSegWF

/-- Weaker element condition actually used by the scanning lemmas (it
also covers the backslashes introduced by dot escaping): literals are
not an opening brace and not whitespace; token names are nonempty
alphanumeric. -/
def patSegOk : PatSeg → Bool
  | .litc c => !(c = '{') && !isWs c
  | .tok n => !n.isEmpty && n.all isAlnum

def patOk (ps : List PatSeg) : Bool := ps.all patSegOk

/-- The wildcard names of an abstract pattern, in order. -/
def toksOf : List PatSeg → List Chars
  | [] => []
  | .litc _ :: rest => toksOf rest
  | .tok n :: rest => n :: toksOf rest

theorem ws_char {c : Char} (h : isWs c = true) :
    c = ' ' ∨ c = '\t' ∨ c = '\n' ∨ c = '\x0c' ∨ c = '\r' := by
  unfold isWs at h
  simp only [Bool.or_eq_true, decide_eq_true_eq] at h
  tauto

theorem alnum_not_ws {c : Char} (h : isAlnum c = true) : isWs c = false := by
  by_contra hw
  rw [Bool.not_eq_false] at hw
  rcases ws_char hw with h1 | h1 | h1 | h1 | h1 <;> (subst h1; exact absurd h (by decide))

theorem alnum_ne_lbrace {c : Char} (h : isAlnum c = true) : c ≠ '{' := by
  intro he
  rw [he] at h
  exact absurd h (by decide)
theorem wf_imp_ok (ps : List PatSeg) (h : patWF ps = true) : patOk ps = true := by
  unfold patWF at h
  unfold patOk
  rw [List.all_eq_true] at h ⊢
  intro seg hseg
  have h2 := h seg hseg
  cases seg with
  | litc c =>
    unfold patSegWF at h2
    unfold patSegOk
    simp only [Bool.or_eq_true, decide_eq_true_eq] at h2
    rcases h2 with h2 | h2
    · simp [alnum_ne_lbrace h2, alnum_not_ws h2]
    · subst h2
      decide
  | tok n => exact h2

theorem takeWhile_all_append (p : Char → Bool) (l1 l2 : Chars)
    (h : ∀ c ∈ l1, p c = true) : (l1 ++ l2).takeWhile p = l1 ++ l2.takeWhile p := by
  induction l1 with
  | nil => rfl
  | cons c t ih =>
    have hc : p c = true := h c (by simp)
    simp [List.takeWhile_cons, hc, ih (fun c2 hc2 => h c2 (List.mem_cons_of_mem c hc2))]

/-- The wildcard finder on a single-space token head: it consumes exactly
the token and captures exactly the name. -/
theorem tryTok_token (n rest : Chars) (hn : n ≠ [])
    (ha : ∀ c ∈ n, isWs c = false) :
    tryTok (' ' :: (n ++ ' ' :: '}' :: '}' :: rest)) = some (n.length + 4, n) := by
  obtain ⟨c0, n', rfl⟩ : ∃ c0 n', n = c0 :: n' := by
    cases n with
    | nil => exact absurd rfl hn
    | cons c0 n' => exact ⟨c0, n', rfl⟩
  have hc0 : isWs c0 = false := ha c0 (by simp)
  unfold tryTok
  have hw1 : ((' ' :: (c0 :: n' ++ ' ' :: '}' :: '}' :: rest)).takeWhile isWs).length = 1 := by
    simp [List.takeWhile_cons, show isWs ' ' = true from by decide, hc0]
  rw [hw1]
  simp only [List.drop_succ_cons, List.drop_zero]
  have hr : (((c0 :: n') ++ ' ' :: '}' :: '}' :: rest).takeWhile (fun c => !isWs c)).length =
      (c0 :: n').length := by
    rw [takeWhile_all_append _ _ _ (fun c hc => by simp [ha c hc])]
    simp [List.takeWhile_cons, show isWs ' ' = true from by decide]
  rw [hr]
  rw [if_neg (by simp)]
  rw [List.drop_left]
  have hw2 : ((' ' :: '}' :: '}' :: rest).takeWhile isWs).length = 1 := by
    simp [List.takeWhile_cons, isWs]
  rw [hw2]
  simp only [List.drop_succ_cons, List.drop_zero]
  rw [if_pos (by simp)]
  rw [List.take_left]
  simp only [Option.some.injEq, Prod.mk.injEq, List.length_cons]
  refine ⟨by omega, by simp⟩

theorem findToksF_nil (f : Nat) : findToksF f [] = [] := by
  cases f <;> rfl

theorem segsOfF_nil (f : Nat) : segsOfF f [] = [] := by
  cases f <;> rfl

theorem findToksF_step (f : Nat) (c : Char) (t : Chars)
    (hno : ∀ s1 : Chars, c = '{' → t = '{' :: s1 → False) :
    findToksF (f + 1) (c :: t) = findToksF f t := by
  rw [findToksF.eq_def]
  split
  · omega
  · exact absurd ‹c :: t = ([] : Chars)› (by simp)
  · rename_i x1 x2 fuel s1 heq1 heq
    injection heq with h1 h2
    exact (hno s1 h1 h2).elim
  · rename_i x1 x2 fuel hd s hnm heq1 heq
    injection heq with h1 h2
    subst h2
    have hf : fuel = f := Nat.succ.inj heq1.symm
    subst hf
    rfl

theorem findToksF_tok (f : Nat) (s1 : Chars) :
    findToksF (f + 1) ('{' :: '{' :: s1) =
      (match tryTok s1 with
       | some (n, name) => ('{' :: '{' :: s1.take n, name) :: findToksF f (s1.drop n)
       | none => findToksF f ('{' :: s1)) := by
  rw [findToksF.eq_def]
  split
  · omega
  · exact absurd ‹('{' :: '{' :: s1 : Chars) = []› (by simp)
  · rename_i x1 x2 fuel s1' heq1 heq
    injection heq with h1 h2
    injection h2 with h3 h4
    subst h4
    have hf : fuel = f := Nat.succ.inj heq1.symm
    subst hf
    rfl
  · rename_i x1 x2 fuel hd s hnm heq1 heq
    injection heq with h1 h2
    exact (hnm s1 h1.symm h2.symm).elim

theorem segsOfF_step (f : Nat) (c : Char) (t : Chars)
    (hno : ∀ s1 : Chars, c = '{' → t = '{' :: s1 → False) :
    segsOfF (f + 1) (c :: t) = .litc c :: segsOfF f t := by
  rw [segsOfF.eq_def]
  split
  · omega
  · exact absurd ‹c :: t = ([] : Chars)› (by simp)
  · rename_i x1 x2 fuel s1 heq1 heq
    injection heq with h1 h2
    exact (hno s1 h1 h2).elim
  · rename_i x1 x2 fuel hd s hnm heq1 heq
    injection heq with h1 h2
    subst h1
    subst h2
    have hf : fuel = f := Nat.succ.inj heq1.symm
    subst hf
    rfl

theorem segsOfF_tok (f : Nat) (s1 : Chars) :
    segsOfF (f + 1) ('{' :: '{' :: s1) =
      (match tryTok s1 with
       | some (n, _) => .group :: segsOfF f (s1.drop n)
       | none => .litc '{' :: segsOfF f ('{' :: s1)) := by
  rw [segsOfF.eq_def]
  split
  · omega
  · exact absurd ‹('{' :: '{' :: s1 : Chars) = []› (by simp)
  · rename_i x1 x2 fuel s1' heq1 heq
    injection heq with h1 h2
    injection h2 with h3 h4
    subst h4
    have hf : fuel = f := Nat.succ.inj heq1.symm
    subst hf
    rfl
  · rename_i x1 x2 fuel hd s hnm heq1 heq
    injection heq with h1 h2
    exact (hnm s1 h1.symm h2.symm).elim

theorem findToksF_mono (f1 : Nat) : ∀ (f2 : Nat) (s : Chars),
    s.length ≤ f1 → s.length ≤ f2 → findToksF f1 s = findToksF f2 s := by
  induction f1 with
  | zero =>
    intro f2 s h1 h2
    have : s = [] := List.eq_nil_of_length_eq_zero (by omega)
    subst this
    rw [findToksF_nil, findToksF_nil]
  | succ f1 ih =>
    intro f2 s h1 h2
    cases s with
    | nil => rw [findToksF_nil, findToksF_nil]
    | cons c t =>
      simp only [List.length_cons] at h1 h2
      obtain ⟨g, rfl⟩ : ∃ g, f2 = g + 1 := ⟨f2 - 1, by omega⟩
      by_cases hshape : c = '{' ∧ ∃ s1, t = '{' :: s1
      · obtain ⟨rfl, s1, rfl⟩ := hshape
        rw [findToksF_tok, findToksF_tok]
        cases htt : tryTok s1 with
        | some p =>
          obtain ⟨n, name⟩ := p
          have hd : (s1.drop n).length ≤ s1.length := by
            rw [List.length_drop]; omega
          simp only [List.length_cons] at h1 h2
          show ('{' :: '{' :: s1.take n, name) :: findToksF f1 (s1.drop n) =
            ('{' :: '{' :: s1.take n, name) :: findToksF g (s1.drop n)
          rw [ih g (s1.drop n) (by omega) (by omega)]
        | none =>
          simp only [List.length_cons] at h1 h2
          show findToksF f1 ('{' :: s1) = findToksF g ('{' :: s1)
          rw [ih g ('{' :: s1) (by simp; omega) (by simp; omega)]
      · have hno : ∀ s1 : Chars, c = '{' → t = '{' :: s1 → False := by
          intro s1 hc ht
          exact hshape ⟨hc, s1, ht⟩
        rw [findToksF_step _ _ _ hno, findToksF_step _ _ _ hno]
        exact ih g t (by omega) (by omega)

theorem segsOfF_mono (f1 : Nat) : ∀ (f2 : Nat) (s : Chars),
    s.length ≤ f1 → s.length ≤ f2 → segsOfF f1 s = segsOfF f2 s := by
  induction f1 with
  | zero =>
    intro f2 s h1 h2
    have : s = [] := List.eq_nil_of_length_eq_zero (by omega)
    subst this
    rw [segsOfF_nil, segsOfF_nil]
  | succ f1 ih =>
    intro f2 s h1 h2
    cases s with
    | nil => rw [segsOfF_nil, segsOfF_nil]
    | cons c t =>
      simp only [List.length_cons] at h1 h2
      obtain ⟨g, rfl⟩ : ∃ g, f2 = g + 1 := ⟨f2 - 1, by omega⟩
      by_cases hshape : c = '{' ∧ ∃ s1, t = '{' :: s1
      · obtain ⟨rfl, s1, rfl⟩ := hshape
        rw [segsOfF_tok, segsOfF_tok]
        cases htt : tryTok s1 with
        | some p =>
          obtain ⟨n, name⟩ := p
          have hd : (s1.drop n).length ≤ s1.length := by
            rw [List.length_drop]; omega
          simp only [List.length_cons] at h1 h2
          show Seg.group :: segsOfF f1 (s1.drop n) = Seg.group :: segsOfF g (s1.drop n)
          rw [ih g (s1.drop n) (by omega) (by omega)]
        | none =>
          simp only [List.length_cons] at h1 h2
          show Seg.litc '{' :: segsOfF f1 ('{' :: s1) = Seg.litc '{' :: segsOfF g ('{' :: s1)
          rw [ih g ('{' :: s1) (by simp; omega) (by simp; omega)]
      · have hno : ∀ s1 : Chars, c = '{' → t = '{' :: s1 → False := by
          intro s1 hc ht
          exact hshape ⟨hc, s1, ht⟩
        rw [segsOfF_step _ _ _ hno, segsOfF_step _ _ _ hno]
        rw [ih g t (by omega) (by omega)]

/-- Number of capturing groups of a compiled pattern. -/
def groupCount : List Seg → Nat
  | [] => 0
  | .group :: r => groupCount r + 1
  | .litc _ :: r => groupCount r

/-- The one compiled element of an abstract pattern element. -/
def segOfPat : PatSeg → Seg
  | .litc c => .litc c
  | .tok _ => .group

/-- Dot escaping on the abstract pattern: a literal dot becomes a
backslash followed by the dot. -/
def expandEsc : PatSeg → List PatSeg
  | .litc c => if c = '.' then [.litc '\\', .litc '.'] else [.litc c]
  | .tok n => [.tok n]

theorem alnum_ne_dot {c : Char} (h : isAlnum c = true) : c ≠ '.' := by
  intro he
  rw [he] at h
  exact absurd h (by decide)

theorem escapeDots_append (l1 l2 : Chars) :
    escapeDots (l1 ++ l2) = escapeDots l1 ++ escapeDots l2 := by
  unfold escapeDots
  rw [List.flatMap_append]

theorem escapeDots_id_of_no_dot (l : Chars) (h : ∀ c ∈ l, c ≠ '.') :
    escapeDots l = l := by
  induction l with
  | nil => rfl
  | cons c t ih =>
    have hc : c ≠ '.' := h c (by simp)
    show (if c = '.' then ['\\', '.'] else [c]) ++ escapeDots t = c :: t
    rw [if_neg hc, ih (fun c2 hc2 => h c2 (List.mem_cons_of_mem c hc2))]
    rfl

theorem toksOf_expand (ps : List PatSeg) :
    toksOf (ps.flatMap expandEsc) = toksOf ps := by
  induction ps with
  | nil => rfl
  | cons seg rest ih =>
    cases seg with
    | litc c =>
      show toksOf (expandEsc (.litc c) ++ rest.flatMap expandEsc) = toksOf rest
      simp only [expandEsc]
      by_cases hc : c = '.'
      · rw [if_pos hc]
        show toksOf (rest.flatMap expandEsc) = toksOf rest
        exact ih
      · rw [if_neg hc]
        show toksOf (rest.flatMap expandEsc) = toksOf rest
        exact ih
    | tok n =>
      show n :: toksOf (rest.flatMap expandEsc) = n :: toksOf rest
      rw [ih]

theorem patOk_expand (ps : List PatSeg) (h : patOk ps = true) :
    patOk (ps.flatMap expandEsc) = true := by
  unfold patOk at h ⊢
  rw [List.all_eq_true] at h ⊢
  intro seg hseg
  rw [List.mem_flatMap] at hseg
  obtain ⟨seg0, hseg0, hmem⟩ := hseg
  have h0 := h seg0 hseg0
  cases seg0 with
  | litc c =>
    simp only [expandEsc] at hmem
    by_cases hc : c = '.'
    · rw [if_pos hc] at hmem
      rcases List.mem_pair.mp hmem with rfl | rfl
      · decide
      · decide
    · rw [if_neg hc] at hmem
      simp only [List.mem_singleton] at hmem
      subst hmem
      exact h0
  | tok n =>
    simp only [expandEsc, List.mem_singleton] at hmem
    subst hmem
    exact h0

theorem renderPat_append (l1 l2 : List PatSeg) :
    renderPat (l1 ++ l2) = renderPat l1 ++ renderPat l2 := by
  induction l1 with
  | nil => rfl
  | cons seg rest ih =>
    cases seg with
    | litc c => show c :: renderPat (rest ++ l2) = _; rw [ih]; rfl
    | tok n =>
      show '{' :: '{' :: ' ' :: (n ++ ' ' :: '}' :: '}' :: renderPat (rest ++ l2)) = _
      rw [ih]
      simp [renderPat]

theorem escapeDots_render (ps : List PatSeg) (h : patOk ps = true) :
    escapeDots (renderPat ps) = renderPat (ps.flatMap expandEsc) := by
  induction ps with
  | nil => rfl
  | cons seg rest ih =>
    have hrest : patOk rest = true := by
      unfold patOk at h ⊢
      rw [List.all_eq_true] at h ⊢
      exact fun s hs => h s (List.mem_cons_of_mem seg hs)
    have hseg : patSegOk seg = true := by
      unfold patOk at h
      rw [List.all_eq_true] at h
      exact h seg (by simp)
    cases seg with
    | litc c =>
      show escapeDots (c :: renderPat rest) = renderPat (expandEsc (.litc c) ++ rest.flatMap expandEsc)
      rw [renderPat_append]
      have hstep : escapeDots (c :: renderPat rest) =
          (if c = '.' then ['\\', '.'] else [c]) ++ escapeDots (renderPat rest) := rfl
      rw [hstep, ih hrest]
      simp only [expandEsc]
      by_cases hc : c = '.'
      · rw [if_pos hc, if_pos hc]; rfl
      · rw [if_neg hc, if_neg hc]; rfl
    | tok n =>
      unfold patSegOk at hseg
      simp only [Bool.and_eq_true, List.all_eq_true] at hseg
      have hnd : ∀ c ∈ n, c ≠ '.' := fun c hc => alnum_ne_dot (hseg.2 c hc)
      show escapeDots ('{' :: '{' :: ' ' :: (n ++ ' ' :: '}' :: '}' :: renderPat rest)) =
        renderPat (.tok n :: rest.flatMap expandEsc)
      have h1 : escapeDots ('{' :: '{' :: ' ' :: (n ++ ' ' :: '}' :: '}' :: renderPat rest)) =
          '{' :: '{' :: ' ' :: escapeDots (n ++ ' ' :: '}' :: '}' :: renderPat rest) := rfl
      rw [h1, escapeDots_append, escapeDots_id_of_no_dot n hnd]
      have h2 : escapeDots (' ' :: '}' :: '}' :: renderPat rest) =
          ' ' :: '}' :: '}' :: escapeDots (renderPat rest) := rfl
      rw [h2, ih hrest]
      rfl

theorem patOk_head {seg : PatSeg} {rest : List PatSeg}
    (h : patOk (seg :: rest) = true) : patSegOk seg = true ∧ patOk rest = true := by
  unfold patOk at h ⊢
  rw [List.all_eq_true] at h
  exact ⟨h seg (by simp), by rw [List.all_eq_true]; exact fun s hs => h s (List.mem_cons_of_mem seg hs)⟩

theorem tok_facts {n : Chars} (h : patSegOk (.tok n) = true) :
    n ≠ [] ∧ ∀ c ∈ n, isWs c = false := by
  unfold patSegOk at h
  simp only [Bool.and_eq_true, Bool.not_eq_true', List.all_eq_true] at h
  constructor
  · intro he
    subst he
    simp at h
  · exact fun c hc => alnum_not_ws (h.2 c hc)

theorem litc_ne_lbrace {c : Char} (h : patSegOk (.litc c) = true) : c ≠ '{' := by
  unfold patSegOk at h
  simp only [Bool.and_eq_true, Bool.not_eq_true', decide_eq_false_iff_not] at h
  exact h.1

theorem findToksF_render (ps : List PatSeg) (h : patOk ps = true) :
    ∀ fuel, (renderPat ps).length ≤ fuel →
    findToksF fuel (renderPat ps) =
      (toksOf ps).map (fun n => ('{' :: '{' :: ' ' :: (n ++ [' ', '}', '}']), n)) := by
  induction ps with
  | nil => intro fuel _; exact findToksF_nil fuel
  | cons seg rest ih =>
    obtain ⟨hseg, hrest⟩ := patOk_head h
    cases seg with
    | litc c =>
      intro fuel hf
      show findToksF fuel (c :: renderPat rest) = _
      simp only [renderPat, List.length_cons] at hf
      obtain ⟨g, rfl⟩ : ∃ g, fuel = g + 1 := ⟨fuel - 1, by omega⟩
      rw [findToksF_step g c (renderPat rest)
        (fun s1 hc _ => absurd hc (litc_ne_lbrace hseg))]
      exact ih hrest g (by omega)
    | tok n =>
      intro fuel hf
      obtain ⟨hn, hnws⟩ := tok_facts hseg
      show findToksF fuel ('{' :: '{' :: (' ' :: (n ++ ' ' :: '}' :: '}' :: renderPat rest))) = _
      simp only [renderPat, List.length_cons, List.length_append] at hf
      obtain ⟨g, rfl⟩ : ∃ g, fuel = g + 1 := ⟨fuel - 1, by omega⟩
      rw [findToksF_tok g (' ' :: (n ++ ' ' :: '}' :: '}' :: renderPat rest))]
      rw [tryTok_token n (renderPat rest) hn hnws]
      have hs1 : (' ' :: (n ++ ' ' :: '}' :: '}' :: renderPat rest)) =
          (' ' :: (n ++ [' ', '}', '}'])) ++ renderPat rest := by simp
      have hlen : (' ' :: (n ++ [' ', '}', '}'])).length = n.length + 4 := by simp
      have htake : (' ' :: (n ++ ' ' :: '}' :: '}' :: renderPat rest)).take (n.length + 4) =
          ' ' :: (n ++ [' ', '}', '}']) := by
        rw [hs1, List.take_left' hlen]
      have hdrop : (' ' :: (n ++ ' ' :: '}' :: '}' :: renderPat rest)).drop (n.length + 4) =
          renderPat rest := by
        rw [hs1, List.drop_left' hlen]
      show ('{' :: '{' :: (' ' :: (n ++ ' ' :: '}' :: '}' :: renderPat rest)).take (n.length + 4), n) ::
          findToksF g ((' ' :: (n ++ ' ' :: '}' :: '}' :: renderPat rest)).drop (n.length + 4)) = _
      rw [htake, hdrop]
      rw [ih hrest g (by omega)]
      rfl

theorem findToks_render (ps : List PatSeg) (h : patOk ps = true) :
    findToks (renderPat ps) =
      (toksOf ps).map (fun n => ('{' :: '{' :: ' ' :: (n ++ [' ', '}', '}']), n)) :=
  findToksF_render ps h (renderPat ps).length (by omega)

theorem segsOfF_render (ps : List PatSeg) (h : patOk ps = true) :
    ∀ fuel, (renderPat ps).length ≤ fuel →
    segsOfF fuel (renderPat ps) = ps.map segOfPat := by
  induction ps with
  | nil => intro fuel _; exact segsOfF_nil fuel
  | cons seg rest ih =>
    obtain ⟨hseg, hrest⟩ := patOk_head h
    cases seg with
    | litc c =>
      intro fuel hf
      show segsOfF fuel (c :: renderPat rest) = Seg.litc c :: rest.map segOfPat
      simp only [renderPat, List.length_cons] at hf
      obtain ⟨g, rfl⟩ : ∃ g, fuel = g + 1 := ⟨fuel - 1, by omega⟩
      rw [segsOfF_step g c (renderPat rest)
        (fun s1 hc _ => absurd hc (litc_ne_lbrace hseg))]
      rw [ih hrest g (by omega)]
    | tok n =>
      intro fuel hf
      obtain ⟨hn, hnws⟩ := tok_facts hseg
      show segsOfF fuel ('{' :: '{' :: (' ' :: (n ++ ' ' :: '}' :: '}' :: renderPat rest))) =
        Seg.group :: rest.map segOfPat
      simp only [renderPat, List.length_cons, List.length_append] at hf
      obtain ⟨g, rfl⟩ : ∃ g, fuel = g + 1 := ⟨fuel - 1, by omega⟩
      rw [segsOfF_tok g (' ' :: (n ++ ' ' :: '}' :: '}' :: renderPat rest))]
      rw [tryTok_token n (renderPat rest) hn hnws]
      have hs1 : (' ' :: (n ++ ' ' :: '}' :: '}' :: renderPat rest)) =
          (' ' :: (n ++ [' ', '}', '}'])) ++ renderPat rest := by simp
      have hlen : (' ' :: (n ++ [' ', '}', '}'])).length = n.length + 4 := by simp
      have hdrop : (' ' :: (n ++ ' ' :: '}' :: '}' :: renderPat rest)).drop (n.length + 4) =
          renderPat rest := by
        rw [hs1, List.drop_left' hlen]
      show Seg.group ::
          segsOfF g ((' ' :: (n ++ ' ' :: '}' :: '}' :: renderPat rest)).drop (n.length + 4)) = _
      rw [hdrop]
      rw [ih hrest g (by omega)]

theorem segsOf_render (ps : List PatSeg) (h : patOk ps = true) :
    segsOf (renderPat ps) = ps.map segOfPat :=
  segsOfF_render ps h (renderPat ps).length (by omega)

theorem unescapeSegs_pair (c : Char) (rest : List Seg) :
    unescapeSegs (.litc '\\' :: .litc c :: rest) = .litc c :: unescapeSegs rest := rfl

theorem unescapeSegs_cons (s : Seg) (rest : List Seg)
    (h : ∀ (c : Char) (r : List Seg), ¬(s = .litc '\\' ∧ rest = .litc c :: r)) :
    unescapeSegs (s :: rest) = s :: unescapeSegs rest := by
  rw [unescapeSegs.eq_def]
  split
  · rename_i c r heq
    injection heq with h1 h2
    exact ((h c r) ⟨h1, h2⟩).elim
  · rename_i s' r hnm heq
    injection heq with h1 h2
    subst h1
    subst h2
    rfl
  · rename_i heq
    exact absurd heq (by simp)

theorem groupCount_unescape : ∀ (l : List Seg), groupCount (unescapeSegs l) = groupCount l
  | [] => rfl
  | [s] => by
    rw [unescapeSegs_cons s [] (by rintro c r ⟨h1, h2⟩; cases h2)]
    cases s with
    | litc c => rfl
    | group => rfl
  | s1 :: s2 :: rest => by
    cases s2 with
    | group =>
      have hcons : unescapeSegs (s1 :: .group :: rest) = s1 :: unescapeSegs (.group :: rest) := by
        apply unescapeSegs_cons
        rintro c r ⟨h1, h2⟩
        cases h2
      rw [hcons]
      have hrec := groupCount_unescape (Seg.group :: rest)
      cases s1 with
      | litc c =>
        show groupCount (unescapeSegs (Seg.group :: rest)) = groupCount (Seg.group :: rest)
        exact hrec
      | group =>
        show groupCount (unescapeSegs (Seg.group :: rest)) + 1 = groupCount (Seg.group :: rest) + 1
        rw [hrec]
    | litc c2 =>
      by_cases h1 : s1 = Seg.litc '\\'
      · subst h1
        rw [unescapeSegs_pair]
        show groupCount (unescapeSegs rest) = groupCount rest
        exact groupCount_unescape rest
      · have hcons : unescapeSegs (s1 :: .litc c2 :: rest) =
            s1 :: unescapeSegs (.litc c2 :: rest) := by
          apply unescapeSegs_cons
          rintro c r ⟨ha, hb⟩
          exact h1 ha
        rw [hcons]
        have hrec := groupCount_unescape (Seg.litc c2 :: rest)
        cases s1 with
        | litc c =>
          show groupCount (unescapeSegs (Seg.litc c2 :: rest)) = groupCount (Seg.litc c2 :: rest)
          exact hrec
        | group =>
          show groupCount (unescapeSegs (Seg.litc c2 :: rest)) + 1 =
            groupCount (Seg.litc c2 :: rest) + 1
          rw [hrec]

theorem groupCount_map_segOfPat (qs : List PatSeg) :
    groupCount (qs.map segOfPat) = (toksOf qs).length := by
  induction qs with
  | nil => rfl
  | cons seg rest ih =>
    cases seg with
    | litc c =>
      show groupCount (.litc c :: rest.map segOfPat) = (toksOf rest).length
      show groupCount (rest.map segOfPat) = (toksOf rest).length
      exact ih
    | tok n =>
      show groupCount (.group :: rest.map segOfPat) = (toksOf rest).length + 1
      show groupCount (rest.map segOfPat) + 1 = (toksOf rest).length + 1
      rw [ih]

/-- Capture count of the compiled pattern of a well-formed abstract
pattern: one group per wildcard token. -/
theorem groupCount_compile (ps : List PatSeg) (h : patOk ps = true) :
    groupCount (compilePattern (renderPat ps)) = (toksOf ps).length := by
  unfold compilePattern
  rw [escapeDots_render ps h, segsOf_render _ (patOk_expand ps h), groupCount_unescape,
      groupCount_map_segOfPat, toksOf_expand]

theorem matchSegsF_length : ∀ (fuel : Nat) (segs : List Seg) (s : Chars) (caps : List Chars),
    matchSegsF fuel segs s = some caps → caps.length = groupCount segs := by
  intro fuel
  induction fuel with
  | zero => intro segs s caps h; exact absurd h (by simp [matchSegsF])
  | succ fuel ih =>
    intro segs s caps h
    cases segs with
    | nil =>
      have hc : (some ([] : List Chars)) = some caps := h
      have hcaps : caps = [] := (Option.some.inj hc).symm
      subst hcaps
      rfl
    | cons sg rest =>
      cases sg with
      | litc c =>
        cases s with
        | nil => exact absurd h (by simp [matchSegsF])
        | cons c' s' =>
          show caps.length = groupCount rest
          by_cases hc : c' = c
          · have h2 : matchSegsF fuel rest s' = some caps := by
              have h3 : (if c' = c then matchSegsF fuel rest s' else none) = some caps := h
              rwa [if_pos hc] at h3
            exact ih rest s' caps h2
          · have h3 : (if c' = c then matchSegsF fuel rest s' else none) = some caps := h
            rw [if_neg hc] at h3
            exact absurd h3 (by simp)
      | group =>
        show caps.length = groupCount rest + 1
        have h2 := List.exists_of_findSome?_eq_some h
        obtain ⟨k, hk, hinner⟩ := h2
        cases hm : matchSegsF fuel rest (s.drop k) with
        | none => rw [hm] at hinner; exact absurd hinner (by simp)
        | some caps' =>
          rw [hm] at hinner
          have : s.take k :: caps' = caps := by simpa using hinner
          subst this
          simp only [List.length_cons]
          rw [ih rest (s.drop k) caps' hm]

theorem findFirst_length (segs : List Seg) : ∀ (s : Chars) (caps : List Chars),
    findFirst segs s = some caps → caps.length = groupCount segs := by
  intro s
  induction s with
  | nil =>
    intro caps h
    exact matchSegsF_length _ _ _ _ h
  | cons c s' ih =>
    intro caps h
    unfold findFirst at h
    cases hm : matchSegs segs (c :: s') with
    | some caps2 =>
      rw [hm] at h
      have : caps2 = caps := by simpa using h
      subst this
      exact matchSegsF_length _ _ _ _ hm
    | none =>
      rw [hm] at h
      exact ih caps h

/-- Claim C10: for every rule whose pattern is a concatenation of
alphanumeric-or-dot literals (no other regex metacharacter) and
well-formed single-space wildcard tokens with alphanumeric names, a
successful match produces exactly one capture group per wildcard token
(and the wildcard-finder list has the same length), so every index
access of the substitution loop is in bounds and resolution never hits
the out-of-bounds panic. -/
theorem c10_no_index_panic :
    ∀ (ps : List PatSeg) (meas fld : Chars) (tags : List (Chars × Chars))
      (wspM : Chars) (caps : List Chars),
      patWF ps = true →
      findFirst (compilePattern (renderPat ps)) wspM = some caps →
      caps.length = (toksOf ps).length ∧
      (findToks (renderPat ps)).length = (toksOf ps).length ∧
      resolveRule ⟨renderPat ps, meas, fld, tags⟩ wspM caps ≠ .oob := by
  intro ps meas fld tags wspM caps hwf hff
  have hok : patOk ps = true := wf_imp_ok ps hwf
  have hcaps : caps.length = (toksOf ps).length := by
    rw [findFirst_length _ _ _ hff, groupCount_compile ps hok]
  have hwild : (findToks (renderPat ps)).length = (toksOf ps).length := by
    rw [findToks_render ps hok, List.length_map]
  refine ⟨hcaps, hwild, ?_⟩
  intro hoob
  have hfold := substDown_eq_fold (findToks (renderPat ps)) caps caps.length
    (if meas = [] then lastSegment wspM else meas,
     if fld = [] then str "value" else fld,
     tagsString tags) (by omega) (by omega)
  have hoob2 : (match substDown (findToks (renderPat ps)) caps caps.length
      (if meas = [] then lastSegment wspM else meas,
       if fld = [] then str "value" else fld,
       tagsString tags) with
    | none => AssignResult.oob
    | some (m, f, t) => AssignResult.ok m f t) = AssignResult.oob := hoob
  rw [hfold] at hoob2
  exact absurd hoob2 (by simp)

/-- The abstract pattern of scenario B in its single-space form. -/
def psB : List PatSeg :=
  [.litc 'a', .litc '.', .tok (str "x"), .litc '.', .litc 'b', .litc '.', .tok (str "y")]

/-- Witness for C10: the scenario-B pattern is well formed, matching the
path `a.10.b.20` captures one value per wildcard, and resolution does
not panic. -/
theorem c10_witness :
    patWF psB = true ∧
    findFirst (compilePattern (renderPat psB)) (str "a.10.b.20") =
      some [str "10", str "20"] ∧
    ([str "10", str "20"] : List Chars).length = (toksOf psB).length ∧
    (findToks (renderPat psB)).length = (toksOf psB).length ∧
    resolveRule ⟨renderPat psB, str "m", str "f", []⟩ (str "a.10.b.20")
      [str "10", str "20"] ≠ .oob :=
  ⟨by decide, by decide,
   (c10_no_index_panic psB (str "m") (str "f") [] (str "a.10.b.20")
      [str "10", str "20"] (by decide) (by decide)).1,
   (c10_no_index_panic psB (str "m") (str "f") [] (str "a.10.b.20")
      [str "10", str "20"] (by decide) (by decide)).2.1,
   (c10_no_index_panic psB (str "m") (str "f") [] (str "a.10.b.20")
      [str "10", str "20"] (by decide) (by decide)).2.2⟩
